import Mathlib

/-!
# Rolling percentile estimator (`data/poisson.go`)

Shallow embedding of the `Values` type of `data/poisson.go` and of its
operations `NewValues`, `Set`, `Len`, `ValueLen`, `Reset`, `Threshold`,
`Copy` and `Predict`.

Modelling conventions.

* `float64` values are rationals (`ℚ`): every finite `float64` is one.  The
  arithmetic of `Threshold` and `Predict` is embedded twice.
  `Values.Threshold` and `Values.Predict` compute with exact rationals; they
  serve the properties that hold whichever element the rounded index
  selects: degenerate inputs, the effect of `Reset` on queries, the zero
  filter and the range of the result.  `Values.ThresholdF64` and
  `Values.PredictF64` round every `float64` operation as IEEE 754 binary64
  does (`roundF64`) and make the conversion `int(...)` explicit; they serve
  the properties that name the element read or the index selected.  A
  division by zero is explicit in both (`fdiv`, `divF64` return `none`),
  because `Predict` performs one on empty storage.
* The observations of a `Values` are finite numbers.  `ThresholdNaN` and
  `PredictNaN` embed `Threshold` and `Predict` on storage that may hold NaN
  (`none`), with the comparison of `sort.Float64Slice` and the `float64`
  comparisons; on storage without NaN they are `Values.ThresholdF64` and
  `Values.PredictF64` (`ThresholdNaN_map_some`, `PredictNaN_map_some`).
  Infinities are not modelled.
* A slice length is at most `2 ^ 53` (hypothesis `length ≤ 2 ^ 53` where the
  arithmetic needs it): the runtime cannot allocate that many `float64`s, and
  `float64(len)` is then exact.
* `int` is `Int`.  The counter `length` never exceeds `len(values)` on
  reachable states, so it cannot wrap.
* A run-time panic (slice bound or index out of range) is the result `none`.
* The mutex is not modelled: every operation holds the lock for its whole
  body, so operations are atomic state transformers.
-/

namespace data

/-- The struct `Values`: `length` counts the observations of the current
generation, `values` holds the retained observations in arrival order. -/
structure Values where
  length : Int
  values : List ℚ
  deriving DecidableEq, Repr

/-- Constructor `NewValues`: an empty store, `length` zero-initialised. -/
def NewValues : Values :=
  { length := 0, values := [] }

/-- Method `Values.Set`: `p.length++` and `p.values = append(p.values, value)`. -/
def Values.Set (p : Values) (value : ℚ) : Values :=
  { length := p.length + 1, values := p.values ++ [value] }

/-- Method `Values.Len`: the counter `length`. -/
def Values.Len (p : Values) : Int :=
  p.length

/-- Method `Values.ValueLen`: `len(p.values)`. -/
def Values.ValueLen (p : Values) : Int :=
  (p.values.length : Int)

/-- The slice expression `s[low:]`: panics (`none`) unless `0 ≤ low ≤ len(s)`. -/
def sliceFrom (s : List ℚ) (low : Int) : Option (List ℚ) :=
  if 0 ≤ low ∧ low ≤ (s.length : Int) then some (s.drop low.toNat) else none

/-- Method `Values.Reset`: when `len(p.values) == p.length` only the counter is
cleared; otherwise `p.values = p.values[p.length:]` and the counter is cleared. -/
def Values.Reset (p : Values) : Option Values :=
  if (p.values.length : Int) = p.length then
    some { p with length := 0 }
  else
    match sliceFrom p.values p.length with
    | none => none
    | some rest => some { length := 0, values := rest }

/-- Call `sort.Sort(sort.Float64Slice(fx))`: the ascending rearrangement. -/
def sortAscending (fx : List ℚ) : List ℚ :=
  fx.insertionSort (fun a b => a ≤ b)

/-- Call `sort.Sort(sort.Reverse(sort.Float64Slice(fx)))`: the descending
rearrangement. -/
def sortDescending (fx : List ℚ) : List ℚ :=
  fx.insertionSort (fun a b => a ≥ b)

/-- The index expression `fx[i]`: panics (`none`) unless `0 ≤ i < len(fx)`. -/
def indexAt (fx : List ℚ) (i : Int) : Option ℚ :=
  if 0 ≤ i then fx[i.toNat]? else none

/-- Method `Values.Threshold`. -/
def Values.Threshold (p : Values) (isReverse : Bool) (prob : ℚ) : Option ℚ :=
  if p.values.length < 1 then
    some 0
  else
    let fx := if isReverse then sortDescending p.values else sortAscending p.values
    let point : Int := ⌊(fx.length : ℚ) * prob⌋
    if (fx.length : Int) ≤ point + 1 then
      some 0
    else
      indexAt fx (point + 1)

/-- Method `Values.Copy`: the retained observations. -/
def Values.Copy (p : Values) : List ℚ :=
  p.values

/-- Division of `float64`s, `none` when the divisor is zero (the IEEE result
is then an infinity or NaN, not a number of the model). -/
def fdiv (a b : ℚ) : Option ℚ :=
  if b = 0 then none else some (a / b)

/-- First loop of `Values.Predict`, over the indices still to visit: entry `i`
of `fx` stays `0` when `spread < threshold` and is `spread * ratio` otherwise. -/
def predictFill (p : Values) (threshold base : ℚ) : List Nat → Option (List ℚ)
  | [] => some []
  | i :: rest =>
    let ratio := (i : ℚ) * base
    match p.Threshold true ratio with
    | none => none
    | some spread =>
      match predictFill p threshold base rest with
      | none => none
      | some tail => some ((if spread < threshold then 0 else spread * ratio) :: tail)

/-- Second loop of `Values.Predict`: `i` is the index of the head of the
remaining `fx`, the pair is `(profit, maxLength)`. -/
def predictMax : List ℚ → Nat → ℚ × Nat → ℚ × Nat
  | [], _, acc => acc
  | x :: rest, i, (profit, maxLength) =>
    if profit < x then predictMax rest (i + 1) (x, i)
    else predictMax rest (i + 1) (profit, maxLength)

/-- Method `Values.Predict`.  The outer `Option` is a panic; the first component of
the pair is the returned rate `ex`, `none` when it is not a number.  `base`
is `1 / float64(count)`; it is infinite exactly when `count = 0`, and then no
loop body runs and the returned rate is `0 * Inf`, a NaN, with `profit`
still `0`. -/
def Values.Predict (p : Values) (threshold : ℚ) : Option (Option ℚ × ℚ) :=
  let count := p.values.length
  match fdiv 1 (count : ℚ) with
  | none => some (none, 0)
  | some base =>
    match predictFill p threshold base (List.range count) with
    | none => none
    | some fx =>
      let r := predictMax fx 0 (0, 0)
      some (some ((r.2 : ℚ) * base), r.1)

/-- A call made by the consumer: `Set(value)` or `Reset()`. -/
inductive Op where
  | append (value : ℚ)
  | roll
  deriving DecidableEq, Repr

/-- Apply one call to a state. -/
def step (p : Values) : Op → Option Values
  | Op.append v => some (p.Set v)
  | Op.roll => p.Reset

/-- Apply a sequence of calls, in order. -/
def run (p : Values) : List Op → Option Values
  | [] => some p
  | o :: rest =>
    match step p o with
    | none => none
    | some q => run q rest

/-- Append every observation of `g`, in order. -/
def setAll (p : Values) (g : List ℚ) : Values :=
  g.foldl Values.Set p

/-- Largest number of `Set` calls in one generation; `cur` is the size of the
generation in progress and `best` the largest size seen so far. -/
def maxGenerationAux : List Op → Nat → Nat → Nat
  | [], _, best => best
  | Op.append _ :: rest, cur, best => maxGenerationAux rest (cur + 1) (max best (cur + 1))
  | Op.roll :: rest, _, best => maxGenerationAux rest 0 best

/-- Largest number of observations appended in any single generation of a
call sequence, the unfinished last generation included. -/
def maxGeneration (ops : List Op) : Nat :=
  maxGenerationAux ops 0 0

/-- Contribution of one candidate rate, in the words of the specification of
`Predict`: "if `spread < targetThreshold`, contribution is 0; else
contribution is `spread * ratio`". -/
def contribution (targetThreshold spread ratio : ℚ) : ℚ :=
  if spread < targetThreshold then 0 else spread * ratio

/-- The call sequence of two generations: append `g1`, roll, append `g2`, roll. -/
def twoGenerations (g1 g2 : List ℚ) : List Op :=
  g1.map Op.append ++ [Op.roll] ++ g2.map Op.append ++ [Op.roll]

/-- Number of `Set` calls made after the last `Reset` call of a sequence (or
since creation when there is none); `cur` is the running count. -/
def appendsSinceRollAux : List Op → Nat → Nat
  | [], cur => cur
  | Op.append _ :: rest, cur => appendsSinceRollAux rest (cur + 1)
  | Op.roll :: rest, _ => appendsSinceRollAux rest 0

/-- Number of `Set` calls since the most recent `Reset` call, or since
creation. -/
def appendsSinceRoll (ops : List Op) : Nat :=
  appendsSinceRollAux ops 0

/-- The values passed to `Set` by a call sequence, in arrival order. -/
def appended : List Op → List ℚ
  | [] => []
  | Op.append v :: rest => v :: appended rest
  | Op.roll :: rest => appended rest

/-- Storage size at the first `Reset` call of the sequence that is made while
the storage is non-empty, the sequence being applied to the state `p`;
`none` when there is no such call. -/
def firstRollSize (p : Values) : List Op → Option Nat
  | [] => none
  | Op.append v :: rest => firstRollSize (p.Set v) rest
  | Op.roll :: rest =>
    if p.values.length ≠ 0 then some p.values.length
    else
      match p.Reset with
      | none => none
      | some q => firstRollSize q rest

/-! ### Rounded `float64` arithmetic

The definitions above compute with exact rationals.  Where the element read
or the values compared depend on rounding, the definitions below are used:
they round every `float64` operation of the source (round to nearest, ties
to even, 53-bit significand, gradual underflow below `2 ^ (-1022)`), and
make the conversion to `int` explicit.  A result of magnitude `2 ^ 1024` or
more is an infinity in `float64`; here it stays a large rational, which
makes no difference to the source: the product in `Threshold` goes through
`int(...)`, out of range either way, and the products in `Predict` have a
factor `ratio ≤ 1`. -/

/-- Round to the nearest integer, ties to the even one. -/
def roundHalfEven (y : ℚ) : ℤ :=
  if y - ⌊y⌋ < 1 / 2 then ⌊y⌋
  else if 1 / 2 < y - ⌊y⌋ then ⌊y⌋ + 1
  else if ⌊y⌋ % 2 = 0 then ⌊y⌋ else ⌊y⌋ + 1

/-- Exponent of the unit in the last place of a `float64` of magnitude `x`:
`floor(log2 x) - 52`, and `-1074` in the subnormal range. -/
def quantumExp (x : ℚ) : ℤ :=
  max (Int.log 2 x - 52) (-1074)

/-- Rounding of a non-negative number to a `float64`. -/
def roundPos (x : ℚ) : ℚ :=
  (roundHalfEven (x / 2 ^ quantumExp x) : ℚ) * 2 ^ quantumExp x

/-- Rounding to a `float64`, sign and magnitude. -/
def roundF64 (x : ℚ) : ℚ :=
  if x < 0 then -roundPos (-x) else roundPos x

/-- The conversion `float64(n)` of a non-negative `int`. -/
def float64Of (n : ℕ) : ℚ :=
  roundF64 (n : ℚ)

/-- The `float64` product `a * b`. -/
def mulF64 (a b : ℚ) : ℚ :=
  roundF64 (a * b)

/-- The `float64` quotient `a / b`, `none` when the divisor is zero. -/
def divF64 (a b : ℚ) : Option ℚ :=
  if b = 0 then none else some (roundF64 (a / b))

/-- The conversion `int(math.Floor(x))`: `none` when the floor is outside
`int64`, where the result of the conversion is implementation-dependent.
(`point + 1` cannot wrap: a `float64` of magnitude `2 ^ 53` or more is an even
integer, so `point` is never `2 ^ 63 - 1`.) -/
def intOfFloor (x : ℚ) : Option ℤ :=
  if -(2 : ℤ) ^ 63 ≤ ⌊x⌋ ∧ ⌊x⌋ < (2 : ℤ) ^ 63 then some ⌊x⌋ else none

/-- Method `Values.Threshold` with rounded arithmetic:
`point := int(math.Floor(float64(len(fx)) * prob))`. -/
def Values.ThresholdF64 (p : Values) (isReverse : Bool) (prob : ℚ) : Option ℚ :=
  if p.values.length < 1 then
    some 0
  else
    let fx := if isReverse then sortDescending p.values else sortAscending p.values
    match intOfFloor (mulF64 (float64Of fx.length) prob) with
    | none => none
    | some point =>
      if (fx.length : Int) ≤ point + 1 then
        some 0
      else
        indexAt fx (point + 1)

/-- First loop of `Values.Predict` with rounded arithmetic:
`ratio := float64(i) * base`, `spread := p.Threshold(true, ratio)` and
`fx[i] = spread * ratio` unless `spread < threshold`. -/
def predictFillF64 (p : Values) (threshold base : ℚ) : List Nat → Option (List ℚ)
  | [] => some []
  | i :: rest =>
    let ratio := mulF64 (float64Of i) base
    match p.ThresholdF64 true ratio with
    | none => none
    | some spread =>
      match predictFillF64 p threshold base rest with
      | none => none
      | some tail => some ((if spread < threshold then 0 else mulF64 spread ratio) :: tail)

/-- Method `Values.Predict` with rounded arithmetic: `base` is
`1 / float64(count)` and the returned rate is `float64(maxLength) * base`.
As in `Values.Predict`, the outer `Option` is a panic and the rate is `none`
when `count = 0`. -/
def Values.PredictF64 (p : Values) (threshold : ℚ) : Option (Option ℚ × ℚ) :=
  let count := p.values.length
  match divF64 1 (float64Of count) with
  | none => some (none, 0)
  | some base =>
    match predictFillF64 p threshold base (List.range count) with
    | none => none
    | some fx =>
      let r := predictMax fx 0 (0, 0)
      some (some (mulF64 (float64Of r.2) base), r.1)

/-- Contribution of one candidate rate, in the words of the specification of
`Predict`, the product being the `float64` product: "if
`spread < targetThreshold`, contribution is 0; else contribution is
`spread * ratio`". -/
def contributionF64 (targetThreshold spread ratio : ℚ) : ℚ :=
  if spread < targetThreshold then 0 else mulF64 spread ratio

/-- The `float64` nearest to `0.7`. -/
def float07 : ℚ :=
  3152519739159347 / 4503599627370496

/-- Storage holding `1, 2, ..., 10`. -/
def oneToTen : Values :=
  { length := 0, values := [1, 2, 3, 4, 5, 6, 7, 8, 9, 10] }

/-- Storage holding `3, 3, 9, 9, 9`. -/
def threesAndNines : Values :=
  { length := 0, values := [3, 3, 9, 9, 9] }

/-- Storage holding `1, 2, ..., 7`. -/
def oneToSeven : Values :=
  { length := 0, values := [1, 2, 3, 4, 5, 6, 7] }

/-- The values `1, 2, ..., 10`, none of them NaN. -/
def oneToTenNaN : List (Option ℚ) :=
  [some 1, some 2, some 3, some 4, some 5, some 6, some 7, some 8, some 9, some 10]

/-! ### Observations that may be NaN

`Set` stores any `float64`, NaN included.  In the definitions below a stored
value is `some x` for a number and `none` for NaN; infinities are not
modelled. -/

/-- The comparison `sort.Float64Slice.Less`:
`x[i] < x[j] || (isNaN(x[i]) && !isNaN(x[j]))`. -/
def lessNaN : Option ℚ → Option ℚ → Bool
  | some a, some b => decide (a < b)
  | none, some _ => true
  | some _, none => false
  | none, none => false

/-- The `float64` comparison `a <= b`, false when either side is NaN. -/
def leNaN : Option ℚ → Option ℚ → Bool
  | some a, some b => decide (a ≤ b)
  | _, _ => false

/-- Call `sort.Sort(sort.Float64Slice(fx))` on values that may be NaN: no
element is `Less` than the one before it. -/
def sortAscendingNaN (fx : List (Option ℚ)) : List (Option ℚ) :=
  fx.insertionSort (fun a b => lessNaN b a = false)

/-- Call `sort.Sort(sort.Reverse(sort.Float64Slice(fx)))` on values that may
be NaN. -/
def sortDescendingNaN (fx : List (Option ℚ)) : List (Option ℚ) :=
  fx.insertionSort (fun a b => lessNaN a b = false)

/-- Method `Values.Threshold` on stored values that may be NaN, with rounded
arithmetic.  The outer `Option` is a panic, the inner one a NaN result. -/
def ThresholdNaN (values : List (Option ℚ)) (isReverse : Bool) (prob : ℚ) :
    Option (Option ℚ) :=
  if values.length < 1 then
    some (some 0)
  else
    let fx := if isReverse then sortDescendingNaN values else sortAscendingNaN values
    match intOfFloor (mulF64 (float64Of fx.length) prob) with
    | none => none
    | some point =>
      if (fx.length : Int) ≤ point + 1 then
        some (some 0)
      else if 0 ≤ point + 1 then fx[(point + 1).toNat]? else none

/-- The `float64` comparison `a < b`, false when either side is NaN. -/
def ltNaN : Option ℚ → Option ℚ → Bool
  | some a, some b => decide (a < b)
  | _, _ => false

/-- The `float64` product `spread * ratio` of a value that may be NaN and a
number: NaN when `spread` is NaN. -/
def mulNaN (spread : Option ℚ) (ratio : ℚ) : Option ℚ :=
  spread.map (fun x => mulF64 x ratio)

/-- First loop of `Values.Predict` on stored values that may be NaN. -/
def predictFillNaN (values : List (Option ℚ)) (threshold base : ℚ) :
    List Nat → Option (List (Option ℚ))
  | [] => some []
  | i :: rest =>
    let ratio := mulF64 (float64Of i) base
    match ThresholdNaN values true ratio with
    | none => none
    | some spread =>
      match predictFillNaN values threshold base rest with
      | none => none
      | some tail =>
        some ((if ltNaN spread (some threshold) then some 0 else mulNaN spread ratio) :: tail)

/-- Second loop of `Values.Predict` on contributions that may be NaN. -/
def predictMaxNaN : List (Option ℚ) → Nat → Option ℚ × Nat → Option ℚ × Nat
  | [], _, acc => acc
  | x :: rest, i, (profit, maxLength) =>
    if ltNaN profit x then predictMaxNaN rest (i + 1) (x, i)
    else predictMaxNaN rest (i + 1) (profit, maxLength)

/-- Method `Values.Predict` on stored values that may be NaN, with rounded
arithmetic.  The outer `Option` is a panic; in the pair, `none` is NaN. -/
def PredictNaN (values : List (Option ℚ)) (threshold : ℚ) :
    Option (Option ℚ × Option ℚ) :=
  let count := values.length
  match divF64 1 (float64Of count) with
  | none => some (none, some 0)
  | some base =>
    match predictFillNaN values threshold base (List.range count) with
    | none => none
    | some fx =>
      let r := predictMaxNaN fx 0 (some 0, 0)
      some (some (mulF64 (float64Of r.2) base), r.1)

/-! ## State lemmas -/

theorem setAll_eq (g : List ℚ) (p : Values) :
    setAll p g = { length := p.length + g.length, values := p.values ++ g } := by
  induction g generalizing p with
  | nil => simp [setAll]
  | cons v g ih =>
    have h := ih (p.Set v)
    simp only [setAll, List.foldl_cons] at h ⊢
    rw [h]
    simp only [Values.Set, List.length_cons, Nat.cast_add, Nat.cast_one, List.append_assoc,
      List.singleton_append, Values.mk.injEq, and_true]
    omega

theorem run_append (a b : List Op) (p : Values) :
    run p (a ++ b) = (run p a).bind (fun q => run q b) := by
  induction a generalizing p with
  | nil => simp [run]
  | cons o a ih =>
    simp only [List.cons_append, run]
    cases step p o with
    | none => simp
    | some q => simpa using ih q

theorem run_map_append (g : List ℚ) (p : Values) :
    run p (g.map Op.append) = some (setAll p g) := by
  induction g generalizing p with
  | nil => simp [run, setAll]
  | cons v g ih => simp [run, step, setAll, ih]

theorem Reset_of_le (p : Values) (h0 : 0 ≤ p.length) (h : p.length ≤ p.values.length) :
    p.Reset = some { length := 0,
                     values := if (p.values.length : Int) = p.length then p.values
                               else p.values.drop p.length.toNat } := by
  unfold Values.Reset sliceFrom
  by_cases he : (p.values.length : Int) = p.length
  · simp [he]
  · simp [he, h0, h]

theorem run_invariant (ops : List Op) (p : Values) (cur best : Nat)
    (hl : p.length = (cur : Int)) (hc : cur ≤ best)
    (hv : p.values.length ≤ best + cur) (hcv : cur ≤ p.values.length) :
    ∃ q, run p ops = some q ∧ 0 ≤ q.length ∧ q.length ≤ (q.values.length : Int) ∧
      q.values.length ≤ 2 * maxGenerationAux ops cur best := by
  induction ops generalizing p cur best with
  | nil =>
    refine ⟨p, rfl, ?_, ?_, ?_⟩
    · omega
    · omega
    · simp only [maxGenerationAux]; omega
  | cons o ops ih =>
    cases o with
    | append v =>
      simp only [run, step, maxGenerationAux]
      apply ih (p.Set v) (cur + 1) (max best (cur + 1))
      · simp only [Values.Set, hl]; push_cast; rfl
      · exact le_max_right _ _
      · have := le_max_left best (cur + 1)
        simp only [Values.Set, List.length_append, List.length_singleton]
        omega
      · simp only [Values.Set, List.length_append, List.length_singleton]
        omega
    | roll =>
      have hr := Reset_of_le p (by omega) (by omega)
      simp only [run, step, maxGenerationAux, hr]
      apply ih _ 0 best
      · rfl
      · omega
      · by_cases he : (p.values.length : Int) = p.length
        · simp only [he, if_true]; omega
        · simp only [he, if_false, List.length_drop]; omega
      · omega

/-! ## Lemmas on `Threshold` -/

theorem sortAscending_unique (l s : List ℚ) (hp : s.Perm l)
    (hs : s.Sorted (fun a b => a ≤ b)) : sortAscending l = s :=
  List.eq_of_perm_of_sorted ((List.perm_insertionSort _ l).trans hp.symm)
    (List.sorted_insertionSort _ l) hs

theorem sortDescending_unique (l s : List ℚ) (hp : s.Perm l)
    (hs : s.Sorted (fun a b => a ≥ b)) : sortDescending l = s :=
  List.eq_of_perm_of_sorted ((List.perm_insertionSort _ l).trans hp.symm)
    (List.sorted_insertionSort _ l) hs

/-- The sorted copy `fx` made by `Threshold`. -/
theorem sortedCopy_length (l : List ℚ) (isReverse : Bool) :
    (if isReverse then sortDescending l else sortAscending l).length = l.length := by
  cases isReverse <;> simp [sortAscending, sortDescending, List.length_insertionSort]

theorem Threshold_of_values_eq (p q : Values) (h : q.values = p.values) (isReverse : Bool)
    (prob : ℚ) : q.Threshold isReverse prob = p.Threshold isReverse prob := by
  simp only [Values.Threshold, h]

/-- Unfolding of `Threshold` on non-empty storage, with the index `point` as a natural
number: valid when `0 ≤ prob`. -/
theorem Threshold_of_nonneg (p : Values) (isReverse : Bool) (prob : ℚ)
    (hne : p.values ≠ []) (h0 : 0 ≤ prob) :
    p.Threshold isReverse prob =
      if p.values.length ≤ ⌊(p.values.length : ℚ) * prob⌋₊ + 1 then some 0
      else (if isReverse then sortDescending p.values
            else sortAscending p.values)[⌊(p.values.length : ℚ) * prob⌋₊ + 1]? := by
  have hpos : 0 < p.values.length := List.length_pos.mpr hne
  have hnp : (0 : ℚ) ≤ (p.values.length : ℚ) * prob :=
    mul_nonneg (Nat.cast_nonneg _) h0
  have hk : ((⌊(p.values.length : ℚ) * prob⌋₊ : ℕ) : ℤ) = ⌊(p.values.length : ℚ) * prob⌋ :=
    Int.natCast_floor_eq_floor hnp
  simp only [Values.Threshold, sortedCopy_length, ← hk]
  rw [if_neg (by omega)]
  by_cases hle : p.values.length ≤ ⌊(p.values.length : ℚ) * prob⌋₊ + 1
  · rw [if_pos hle, if_pos (by omega)]
  · rw [if_neg hle, if_neg (by omega)]
    simp only [indexAt]
    rw [if_pos (by omega)]
    congr 1

/-! ## Lemmas on `Predict` -/

/-- A value returned by `Threshold` is the sentinel `0` or a stored observation. -/
theorem Threshold_zero_or_mem (p : Values) (isReverse : Bool) (prob v : ℚ)
    (h : p.Threshold isReverse prob = some v) : v = 0 ∨ v ∈ p.values := by
  simp only [Values.Threshold, indexAt] at h
  split_ifs at h <;>
    first
    | exact Or.inl (Option.some.inj h).symm
    | exact Or.inr ((List.perm_insertionSort _ p.values).subset (List.getElem?_mem h))

theorem Threshold_isSome_of_nonneg (p : Values) (isReverse : Bool) (prob : ℚ)
    (h0 : 0 ≤ prob) : ∃ v, p.Threshold isReverse prob = some v := by
  by_cases hne : p.values = []
  · exact ⟨0, by simp [Values.Threshold, hne]⟩
  rw [Threshold_of_nonneg p isReverse prob hne h0]
  by_cases hle : p.values.length ≤ ⌊(p.values.length : ℚ) * prob⌋₊ + 1
  · exact ⟨0, by rw [if_pos hle]⟩
  · rw [if_neg hle]
    have hlt : ⌊(p.values.length : ℚ) * prob⌋₊ + 1 <
        (if isReverse then sortDescending p.values else sortAscending p.values).length := by
      rw [sortedCopy_length]; omega
    exact ⟨_, List.getElem?_eq_getElem hlt⟩

theorem predictFill_eq (p : Values) (threshold base : ℚ) (spread : Nat → ℚ) (is : List Nat)
    (h : ∀ i ∈ is, p.Threshold true ((i : ℚ) * base) = some (spread i)) :
    predictFill p threshold base is =
      some (is.map (fun i => contribution threshold (spread i) ((i : ℚ) * base))) := by
  induction is with
  | nil => rfl
  | cons i rest ih =>
    have hi := h i (List.mem_cons_self _ _)
    have hrest := ih (fun j hj => h j (List.mem_cons_of_mem _ hj))
    simp only [predictFill, hi, hrest, List.map_cons, contribution]

theorem predictMax_spec (xs : List ℚ) (i : Nat) (a : ℚ) (j : Nat) :
    (∀ (k : Nat) (v : ℚ), xs[k]? = some v → v ≤ (predictMax xs i (a, j)).1) ∧
    a ≤ (predictMax xs i (a, j)).1 ∧
    ((predictMax xs i (a, j) = (a, j) ∧ ∀ (k : Nat) (v : ℚ), xs[k]? = some v → v ≤ a) ∨
      ∃ (k : Nat) (v : ℚ), xs[k]? = some v ∧ predictMax xs i (a, j) = (v, i + k) ∧ a < v ∧
        ∀ (k' : Nat) (w : ℚ), k' < k → xs[k']? = some w → w < v) := by
  induction xs generalizing i a j with
  | nil => simp [predictMax]
  | cons x xs ih =>
    by_cases hax : a < x
    · obtain ⟨hall, hx, hcase⟩ := ih (i + 1) x i
      simp only [predictMax, if_pos hax]
      refine ⟨?_, le_trans hax.le hx, Or.inr ?_⟩
      · intro k v hk
        cases k with
        | zero => simp only [List.getElem?_cons_zero, Option.some.injEq] at hk; rw [← hk]; exact hx
        | succ k => exact hall k v (by simpa using hk)
      · rcases hcase with ⟨hr, _⟩ | ⟨k, v, hk, hr, hlt, hbefore⟩
        · exact ⟨0, x, by simp, by rw [hr]; rfl, hax, fun k' w hk' _ => absurd hk'
            (Nat.not_lt_zero _)⟩
        · refine ⟨k + 1, v, by simpa using hk, by rw [hr, Nat.add_assoc, Nat.add_comm 1 k],
            lt_trans hax hlt, ?_⟩
          intro k' w hk' hw
          cases k' with
          | zero =>
            simp only [List.getElem?_cons_zero, Option.some.injEq] at hw
            rw [← hw]; exact hlt
          | succ k' => exact hbefore k' w (by omega) (by simpa using hw)
    · obtain ⟨hall, hx, hcase⟩ := ih (i + 1) a j
      have hxa : x ≤ a := not_lt.mp hax
      simp only [predictMax, if_neg hax]
      refine ⟨?_, hx, ?_⟩
      · intro k v hk
        cases k with
        | zero =>
          simp only [List.getElem?_cons_zero, Option.some.injEq] at hk
          rw [← hk]; exact le_trans hxa hx
        | succ k => exact hall k v (by simpa using hk)
      · rcases hcase with ⟨hr, hle⟩ | ⟨k, v, hk, hr, hlt, hbefore⟩
        · left
          refine ⟨hr, ?_⟩
          intro k v hk
          cases k with
          | zero =>
            simp only [List.getElem?_cons_zero, Option.some.injEq] at hk
            rw [← hk]; exact hxa
          | succ k => exact hle k v (by simpa using hk)
        · right
          refine ⟨k + 1, v, by simpa using hk, by rw [hr, Nat.add_assoc, Nat.add_comm 1 k],
            hlt, ?_⟩
          intro k' w hk' hw
          cases k' with
          | zero =>
            simp only [List.getElem?_cons_zero, Option.some.injEq] at hw
            rw [← hw]; exact lt_of_le_of_lt hxa hlt
          | succ k' => exact hbefore k' w (by omega) (by simpa using hw)

/-! ## Lemmas on rounding -/

theorem floor_le_roundHalfEven (y : ℚ) : ⌊y⌋ ≤ roundHalfEven y := by
  unfold roundHalfEven
  split_ifs <;> omega

theorem roundHalfEven_le_floor_add_one (y : ℚ) : roundHalfEven y ≤ ⌊y⌋ + 1 := by
  unfold roundHalfEven
  split_ifs <;> omega

theorem roundHalfEven_intCast (z : ℤ) : roundHalfEven (z : ℚ) = z := by
  unfold roundHalfEven
  simp

theorem roundHalfEven_le_add_half (y : ℚ) : (roundHalfEven y : ℚ) ≤ y + 1 / 2 := by
  have hf := Int.floor_le y
  unfold roundHalfEven
  split_ifs with h1 h2 h3
  · linarith
  · push_cast; linarith
  · linarith
  · push_cast; linarith

theorem sub_half_le_roundHalfEven (y : ℚ) : y - 1 / 2 ≤ (roundHalfEven y : ℚ) := by
  have hf := Int.lt_floor_add_one y
  unfold roundHalfEven
  split_ifs with h1 h2 h3
  · linarith
  · push_cast; linarith
  · linarith
  · push_cast; linarith

theorem roundHalfEven_mono {y z : ℚ} (h : y ≤ z) : roundHalfEven y ≤ roundHalfEven z := by
  rcases (Int.floor_mono h).lt_or_eq with hlt | heq
  · calc roundHalfEven y ≤ ⌊y⌋ + 1 := roundHalfEven_le_floor_add_one y
      _ ≤ ⌊z⌋ := hlt
      _ ≤ roundHalfEven z := floor_le_roundHalfEven z
  · unfold roundHalfEven
    rw [heq]
    split_ifs <;> first | omega | (exfalso; linarith)

theorem roundHalfEven_nonneg {y : ℚ} (h : 0 ≤ y) : 0 ≤ roundHalfEven y :=
  le_trans (Int.floor_nonneg.mpr h) (floor_le_roundHalfEven y)


theorem two_zpow_pos (q : ℤ) : (0 : ℚ) < 2 ^ q :=
  zpow_pos (by norm_num) q

theorem two_zpow_sub_eq_intCast {t q : ℤ} (h : q ≤ t) :
    (2 : ℚ) ^ t = (((2 : ℤ) ^ (t - q).toNat : ℤ) : ℚ) * 2 ^ q := by
  have hk : ((t - q).toNat : ℤ) = t - q := Int.toNat_of_nonneg (by omega)
  have h2 : (2 : ℚ) ≠ 0 := by norm_num
  push_cast
  rw [← zpow_natCast, hk, ← zpow_add₀ h2]
  congr 1
  omega

theorem quantumExp_ge (x : ℚ) : -1074 ≤ quantumExp x :=
  le_max_right _ _

theorem log_sub_le_quantumExp (x : ℚ) : Int.log 2 x - 52 ≤ quantumExp x :=
  le_max_left _ _

theorem roundPos_nonneg {x : ℚ} (h : 0 ≤ x) : 0 ≤ roundPos x := by
  unfold roundPos
  have hq := two_zpow_pos (quantumExp x)
  have : 0 ≤ roundHalfEven (x / 2 ^ quantumExp x) := roundHalfEven_nonneg (div_nonneg h hq.le)
  have : (0 : ℚ) ≤ (roundHalfEven (x / 2 ^ quantumExp x) : ℚ) := by exact_mod_cast this
  positivity

theorem roundPos_zero : roundPos 0 = 0 := by
  unfold roundPos
  rw [zero_div]
  have : roundHalfEven (0 : ℚ) = 0 := by
    have := roundHalfEven_intCast 0
    simpa using this
  rw [this]
  simp

/-- Rounding does not cross a point of the grid it rounds to. -/
theorem roundPos_le_of_le_grid (x : ℚ) (N : ℤ) (h : x ≤ (N : ℚ) * 2 ^ quantumExp x) :
    roundPos x ≤ (N : ℚ) * 2 ^ quantumExp x := by
  unfold roundPos
  have hq := two_zpow_pos (quantumExp x)
  have h1 : x / 2 ^ quantumExp x ≤ (N : ℚ) := by
    rw [div_le_iff₀ hq]; exact h
  have h2 : roundHalfEven (x / 2 ^ quantumExp x) ≤ N := by
    have := roundHalfEven_mono h1
    rwa [roundHalfEven_intCast] at this
  have h3 : (roundHalfEven (x / 2 ^ quantumExp x) : ℚ) ≤ (N : ℚ) := by exact_mod_cast h2
  exact mul_le_mul_of_nonneg_right h3 hq.le

theorem grid_le_roundPos_of_le (x : ℚ) (N : ℤ) (h : (N : ℚ) * 2 ^ quantumExp x ≤ x) :
    (N : ℚ) * 2 ^ quantumExp x ≤ roundPos x := by
  unfold roundPos
  have hq := two_zpow_pos (quantumExp x)
  have h1 : (N : ℚ) ≤ x / 2 ^ quantumExp x := by
    rw [le_div_iff₀ hq]; exact h
  have h2 : N ≤ roundHalfEven (x / 2 ^ quantumExp x) := by
    have := roundHalfEven_mono h1
    rwa [roundHalfEven_intCast] at this
  have h3 : (N : ℚ) ≤ (roundHalfEven (x / 2 ^ quantumExp x) : ℚ) := by exact_mod_cast h2
  exact mul_le_mul_of_nonneg_right h3 hq.le

/-- A grid point is its own rounding. -/
theorem roundPos_grid (x : ℚ) (N : ℤ) (h : x = (N : ℚ) * 2 ^ quantumExp x) :
    roundPos x = x := by
  have h1 := roundPos_le_of_le_grid x N h.le
  have h2 := grid_le_roundPos_of_le x N h.ge
  rw [← h] at h1 h2
  exact le_antisymm h1 h2

theorem roundPos_mono {x y : ℚ} (hx : 0 ≤ x) (h : x ≤ y) : roundPos x ≤ roundPos y := by
  rcases hx.lt_or_eq with hx0 | hx0
  swap
  · rw [← hx0, roundPos_zero]; exact roundPos_nonneg (hx0 ▸ h)
  have hy0 : 0 < y := lt_of_lt_of_le hx0 h
  have hlog : Int.log 2 x ≤ Int.log 2 y := Int.log_mono_right hx0 h
  have hqle : quantumExp x ≤ quantumExp y := max_le_max (by omega) (le_refl _)
  rcases hqle.lt_or_eq with hlt | heq
  · -- different binades: a power of two separates the two roundings
    have hqy : quantumExp y = Int.log 2 y - 52 := by
      unfold quantumExp at hlt ⊢
      have := quantumExp_ge x
      unfold quantumExp at this
      rcases max_cases (Int.log 2 y - 52) (-1074) with ⟨h1, _⟩ | ⟨h1, _⟩
      · exact h1
      · rw [h1] at hlt; omega
    have hxq := log_sub_le_quantumExp x
    have hlt2 : Int.log 2 x + 1 ≤ Int.log 2 y := by omega
    have hxB : x ≤ (2 : ℚ) ^ Int.log 2 y := by
      have h1 : x < ((2 : ℕ) : ℚ) ^ (Int.log 2 x + 1) := Int.lt_zpow_succ_log_self (by norm_num) x
      have h2 : ((2 : ℕ) : ℚ) ^ (Int.log 2 x + 1) ≤ ((2 : ℕ) : ℚ) ^ Int.log 2 y :=
        zpow_le_zpow_right₀ (by norm_num) hlt2
      push_cast at h1 h2
      linarith
    have hBy : (2 : ℚ) ^ Int.log 2 y ≤ y := by
      have := Int.zpow_log_le_self (b := 2) (r := y) (by norm_num) hy0
      push_cast at this
      exact this
    have e1 := two_zpow_sub_eq_intCast (t := Int.log 2 y) (q := quantumExp x) (by omega)
    have e2 := two_zpow_sub_eq_intCast (t := Int.log 2 y) (q := quantumExp y) (by omega)
    calc roundPos x ≤ _ := roundPos_le_of_le_grid x _ (by rw [← e1]; exact hxB)
      _ = (2 : ℚ) ^ Int.log 2 y := e1.symm
      _ = _ := e2
      _ ≤ roundPos y := grid_le_roundPos_of_le y _ (by rw [← e2]; exact hBy)
  · unfold roundPos
    rw [heq]
    have hq := two_zpow_pos (quantumExp y)
    have h1 : x / 2 ^ quantumExp y ≤ y / 2 ^ quantumExp y := div_le_div_of_nonneg_right h hq.le
    have h2 := roundHalfEven_mono h1
    have h3 : (roundHalfEven (x / 2 ^ quantumExp y) : ℚ) ≤
        (roundHalfEven (y / 2 ^ quantumExp y) : ℚ) := by exact_mod_cast h2
    exact mul_le_mul_of_nonneg_right h3 hq.le


/-- A positive multiple `m * 2 ^ j` of a power of two with `m < 2 ^ 53` and
`j ≥ -1074` is a float64 and rounds to itself. -/
theorem roundPos_dyadic (m : ℕ) (j : ℤ) (hm0 : 0 < m) (hm : m < 2 ^ 53) (hj : -1074 ≤ j) :
    roundPos ((m : ℚ) * 2 ^ j) = (m : ℚ) * 2 ^ j := by
  have hj0 := two_zpow_pos j
  have hmq : (0 : ℚ) < (m : ℚ) := by exact_mod_cast hm0
  have hx : (0 : ℚ) < (m : ℚ) * 2 ^ j := mul_pos hmq hj0
  have hlt : (m : ℚ) * 2 ^ j < ((2 : ℕ) : ℚ) ^ (53 + j) := by
    have h2 : (2 : ℚ) ≠ 0 := by norm_num
    push_cast
    rw [zpow_add₀ h2]
    have : (m : ℚ) < 2 ^ (53 : ℤ) := by
      have h : (m : ℚ) < ((2 ^ 53 : ℕ) : ℚ) := Nat.cast_lt.mpr hm
      norm_num at h ⊢
      exact h
    exact mul_lt_mul_of_pos_right this hj0
  have hlog : Int.log 2 ((m : ℚ) * 2 ^ j) < 53 + j :=
    (Int.lt_zpow_iff_log_lt (by norm_num) hx).mp hlt
  have hq : quantumExp ((m : ℚ) * 2 ^ j) ≤ j := by
    unfold quantumExp
    exact max_le (by omega) hj
  apply roundPos_grid _ ((m : ℤ) * (2 : ℤ) ^ (j - quantumExp ((m : ℚ) * 2 ^ j)).toNat)
  have e := two_zpow_sub_eq_intCast hq
  conv_lhs => rw [e]
  push_cast
  ring

theorem roundPos_natCast (n : ℕ) (hn : n ≤ 2 ^ 53) : roundPos (n : ℚ) = n := by
  rcases Nat.eq_zero_or_pos n with h0 | hpos
  · rw [h0]; simpa using roundPos_zero
  rcases hn.lt_or_eq with hlt | heq
  · simpa using roundPos_dyadic n 0 hpos hlt (by norm_num)
  · have := roundPos_dyadic 1 53 (by norm_num) (by norm_num) (by norm_num)
    rw [heq]
    norm_num at this ⊢
    exact this

/-- Relative error of rounding in the normal range. -/
theorem roundPos_le_mul (x : ℚ) (hx : (2 : ℚ) ^ (-1022 : ℤ) ≤ x) :
    roundPos x ≤ x * (1 + 2 ^ (-53 : ℤ)) := by
  have hx0 : 0 < x := lt_of_lt_of_le (two_zpow_pos _) hx
  have hlog : (-1022 : ℤ) ≤ Int.log 2 x :=
    (Int.zpow_le_iff_le_log (by norm_num) hx0).mp (by push_cast; exact hx)
  have hq : quantumExp x = Int.log 2 x - 52 := by
    unfold quantumExp
    exact max_eq_left (by omega)
  have hpow : (2 : ℚ) ^ Int.log 2 x ≤ x := by
    have := Int.zpow_log_le_self (b := 2) (r := x) (by norm_num) hx0
    push_cast at this
    exact this
  have hqpos := two_zpow_pos (quantumExp x)
  have h2 : (2 : ℚ) ≠ 0 := by norm_num
  have hhalf : (1 / 2 : ℚ) * 2 ^ quantumExp x = 2 ^ Int.log 2 x * 2 ^ (-53 : ℤ) := by
    rw [hq, ← zpow_add₀ h2, show (1 / 2 : ℚ) = 2 ^ (-1 : ℤ) by norm_num, ← zpow_add₀ h2]
    congr 1
    omega
  have hr := roundHalfEven_le_add_half (x / 2 ^ quantumExp x)
  have h53 := two_zpow_pos (-53)
  calc roundPos x = (roundHalfEven (x / 2 ^ quantumExp x) : ℚ) * 2 ^ quantumExp x := rfl
    _ ≤ (x / 2 ^ quantumExp x + 1 / 2) * 2 ^ quantumExp x :=
        mul_le_mul_of_nonneg_right hr hqpos.le
    _ = x + 1 / 2 * 2 ^ quantumExp x := by
        rw [add_mul, div_mul_cancel₀ _ hqpos.ne']
    _ = x + 2 ^ Int.log 2 x * 2 ^ (-53 : ℤ) := by rw [hhalf]
    _ ≤ x + x * 2 ^ (-53 : ℤ) := by
        have := mul_le_mul_of_nonneg_right hpow h53.le
        linarith
    _ = x * (1 + 2 ^ (-53 : ℤ)) := by ring

theorem roundF64_of_nonneg {x : ℚ} (h : 0 ≤ x) : roundF64 x = roundPos x := by
  unfold roundF64
  rw [if_neg (not_lt.mpr h)]

theorem roundF64_zero : roundF64 0 = 0 := by
  rw [roundF64_of_nonneg (le_refl _), roundPos_zero]

theorem roundF64_nonneg {x : ℚ} (h : 0 ≤ x) : 0 ≤ roundF64 x := by
  rw [roundF64_of_nonneg h]; exact roundPos_nonneg h

theorem roundF64_of_neg {x : ℚ} (h : x < 0) : roundF64 x = -roundPos (-x) := by
  unfold roundF64
  rw [if_pos h]

theorem roundF64_nonpos {x : ℚ} (h : x ≤ 0) : roundF64 x ≤ 0 := by
  rcases h.lt_or_eq with hlt | heq
  · rw [roundF64_of_neg hlt]
    have := roundPos_nonneg (x := -x) (by linarith)
    linarith
  · rw [heq, roundF64_zero]

theorem roundF64_mono {x y : ℚ} (h : x ≤ y) : roundF64 x ≤ roundF64 y := by
  rcases lt_or_le x 0 with hx | hx
  · rcases lt_or_le y 0 with hy | hy
    · rw [roundF64_of_neg hx, roundF64_of_neg hy]
      have := roundPos_mono (x := -y) (y := -x) (by linarith) (by linarith)
      linarith
    · exact le_trans (roundF64_nonpos hx.le) (roundF64_nonneg hy)
  · rw [roundF64_of_nonneg hx, roundF64_of_nonneg (le_trans hx h)]
    exact roundPos_mono hx h

theorem roundF64_natCast (n : ℕ) (hn : n ≤ 2 ^ 53) : roundF64 (n : ℚ) = n := by
  rw [roundF64_of_nonneg (Nat.cast_nonneg n), roundPos_natCast n hn]

theorem roundF64_one : roundF64 1 = 1 := by
  simpa using roundF64_natCast 1 (by norm_num)

/-- A multiple `m * 2 ^ j` of a power of two with `|m| < 2 ^ 53` and
`j ≥ -1074` is a float64. -/
theorem roundF64_dyadic (m : ℤ) (j : ℤ) (hm : m.natAbs < 2 ^ 53) (hj : -1074 ≤ j) :
    roundF64 ((m : ℚ) * 2 ^ j) = (m : ℚ) * 2 ^ j := by
  have hj0 := two_zpow_pos j
  rcases lt_trichotomy m 0 with hneg | hz | hpos
  · have hmq : (m : ℚ) < 0 := by exact_mod_cast hneg
    rw [roundF64_of_neg (mul_neg_of_neg_of_pos hmq hj0)]
    have hcast : -((m : ℚ) * 2 ^ j) = ((m.natAbs : ℕ) : ℚ) * 2 ^ j := by
      have h : ((m.natAbs : ℕ) : ℤ) = -m := by omega
      have : ((m.natAbs : ℕ) : ℚ) = -(m : ℚ) := by
        rw [← Int.cast_natCast, h, Int.cast_neg]
      rw [this]; ring
    rw [hcast, roundPos_dyadic m.natAbs j (by omega) hm hj, ← hcast]
    ring
  · rw [hz]; simpa using roundF64_zero
  · have hmq : (0 : ℚ) ≤ (m : ℚ) := by exact_mod_cast hpos.le
    rw [roundF64_of_nonneg (mul_nonneg hmq hj0.le)]
    have hcast : (m : ℚ) * 2 ^ j = ((m.natAbs : ℕ) : ℚ) * 2 ^ j := by
      have h : ((m.natAbs : ℕ) : ℤ) = m := by omega
      have : ((m.natAbs : ℕ) : ℚ) = (m : ℚ) := by
        rw [← Int.cast_natCast, h]
      rw [this]
    rw [hcast, roundPos_dyadic m.natAbs j (by omega) hm hj]

/-- The rate `float64(i) * (1 / float64(n))` of `Predict` is at most `1`. -/
theorem roundF64_ratio_le_one (n i : ℕ) (hn : n ≤ 2 ^ 53) (hi : i < n) :
    roundF64 ((i : ℚ) * roundF64 (1 / (n : ℚ))) ≤ 1 := by
  have hnpos : (0 : ℚ) < (n : ℚ) := by exact_mod_cast (lt_of_le_of_lt (Nat.zero_le i) hi)
  have hinv : (2 : ℚ) ^ (-1022 : ℤ) ≤ 1 / (n : ℚ) := by
    rw [le_div_iff₀ hnpos]
    have h1 : (n : ℚ) ≤ 2 ^ (53 : ℕ) := by exact_mod_cast hn
    have h2 : (2 : ℚ) ^ (-1022 : ℤ) * 2 ^ (53 : ℕ) ≤ 1 := by norm_num
    have h3 := two_zpow_pos (-1022)
    nlinarith
  have hbase : roundF64 (1 / (n : ℚ)) ≤ 1 / (n : ℚ) * (1 + 2 ^ (-53 : ℤ)) := by
    rw [roundF64_of_nonneg (by positivity)]
    exact roundPos_le_mul _ hinv
  have hbase0 : 0 ≤ roundF64 (1 / (n : ℚ)) := roundF64_nonneg (by positivity)
  have hle : (i : ℚ) * roundF64 (1 / (n : ℚ)) ≤ 1 := by
    have hi1 : (i : ℚ) + 1 ≤ (n : ℚ) := by exact_mod_cast hi
    have hn1 : (n : ℚ) ≤ 2 ^ (53 : ℕ) := by exact_mod_cast hn
    have hi0 : (0 : ℚ) ≤ (i : ℚ) := Nat.cast_nonneg i
    calc (i : ℚ) * roundF64 (1 / (n : ℚ))
        ≤ (i : ℚ) * (1 / (n : ℚ) * (1 + 2 ^ (-53 : ℤ))) := mul_le_mul_of_nonneg_left hbase hi0
      _ = (i : ℚ) * (1 + 2 ^ (-53 : ℤ)) / (n : ℚ) := by ring
      _ ≤ 1 := by
          rw [div_le_one hnpos]
          have h53 : (2 : ℚ) ^ (-53 : ℤ) * 2 ^ (53 : ℕ) = 1 := by norm_num
          have h53' := two_zpow_pos (-53)
          nlinarith
  calc roundF64 ((i : ℚ) * roundF64 (1 / (n : ℚ))) ≤ roundF64 1 := roundF64_mono hle
    _ = 1 := roundF64_one


/-- Evaluation of the rounding of a positive number from its binade
`2 ^ e ≤ x < 2 ^ (e + 1)` and the rounded significand `m`. -/
theorem roundF64_eval (x : ℚ) (e q m : ℤ) (hq : q = max (e - 52) (-1074))
    (hlo : (2 : ℚ) ^ e ≤ x) (hhi : x < (2 : ℚ) ^ (e + 1))
    (hm : roundHalfEven (x / 2 ^ q) = m) : roundF64 x = (m : ℚ) * 2 ^ q := by
  have hx0 : 0 < x := lt_of_lt_of_le (two_zpow_pos e) hlo
  have h1 : e ≤ Int.log 2 x :=
    (Int.zpow_le_iff_le_log (by norm_num) hx0).mp (by push_cast; exact hlo)
  have h2 : Int.log 2 x < e + 1 :=
    (Int.lt_zpow_iff_log_lt (by norm_num) hx0).mp (by push_cast; exact hhi)
  have hlog : Int.log 2 x = e := by omega
  rw [roundF64_of_nonneg hx0.le]
  unfold roundPos quantumExp
  rw [hlog, ← hq, hm]

theorem roundHalfEven_tie_odd (y : ℚ) (f : ℤ) (hy : y = (f : ℚ) + 1 / 2) (hf : f % 2 = 1) :
    roundHalfEven y = f + 1 := by
  have hfl : ⌊y⌋ = f := by
    rw [Int.floor_eq_iff, hy]; constructor <;> linarith
  unfold roundHalfEven
  rw [hfl, hy]
  norm_num
  omega

theorem roundHalfEven_tie_even (y : ℚ) (f : ℤ) (hy : y = (f : ℚ) + 1 / 2) (hf : f % 2 = 0) :
    roundHalfEven y = f := by
  have hfl : ⌊y⌋ = f := by
    rw [Int.floor_eq_iff, hy]; constructor <;> linarith
  unfold roundHalfEven
  rw [hfl, hy]
  norm_num
  omega

theorem roundHalfEven_down (y : ℚ) (f : ℤ) (h1 : (f : ℚ) ≤ y) (h2 : y < (f : ℚ) + 1 / 2) :
    roundHalfEven y = f := by
  have hfl : ⌊y⌋ = f := by
    rw [Int.floor_eq_iff]; constructor <;> linarith
  unfold roundHalfEven
  rw [hfl, if_pos (by linarith)]

theorem roundHalfEven_up (y : ℚ) (f : ℤ) (h1 : (f : ℚ) + 1 / 2 < y) (h2 : y < (f : ℚ) + 1) :
    roundHalfEven y = f + 1 := by
  have hfl : ⌊y⌋ = f := by
    rw [Int.floor_eq_iff]; constructor <;> linarith
  unfold roundHalfEven
  rw [hfl, if_neg (by linarith), if_pos (by linarith)]

/-! ## Claims on the stored state -/

/-- C2: postcondition of `Reset` (RollWindow) on every state satisfying the
data-model invariant `0 ≤ length ≤ len(values)`: when `length == len(values)`
the observations are kept as they are, otherwise the first `length`
observations are removed, order preserved; in both cases the counter is `0`. -/
theorem Reset_postcondition (p : Values) (h0 : 0 ≤ p.length)
    (h : p.length ≤ (p.values.length : Int)) :
    ((p.values.length : Int) = p.length →
        p.Reset = some { length := 0, values := p.values }) ∧
    ((p.values.length : Int) ≠ p.length →
        p.Reset = some { length := 0, values := p.values.drop p.length.toNat }) := by
  constructor
  · intro he
    rw [Reset_of_le p h0 h, if_pos he]
  · intro he
    rw [Reset_of_le p h0 h, if_neg he]

theorem Reset_postcondition_witness :
    (0 : Int) ≤ 1 ∧ (1 : Int) ≤ (([5, 6, 7] : List ℚ).length : Int) ∧
    (Values.mk 1 [5, 6, 7]).Reset = some { length := 0, values := [6, 7] } :=
  ⟨by decide, by decide,
    (Reset_postcondition (Values.mk 1 [5, 6, 7]) (by decide) (by decide)).2 (by decide)⟩

/-- C5 (as stated, refuted): with `g1 = [1]` and `g2 = [2, 3]` the second
`Reset` leaves `[3]`, not `g2`. -/
theorem twoGenerations_unequal_counterexample :
    run NewValues (twoGenerations [1] [2, 3]) = some { length := 0, values := [3] } ∧
    ¬ ∃ q, run NewValues (twoGenerations [1] [2, 3]) = some q ∧ q.values = [2, 3] := by
  have h : run NewValues (twoGenerations [1] [2, 3]) = some { length := 0, values := [3] } := by
    decide
  refine ⟨h, ?_⟩
  rintro ⟨q, hq, hv⟩
  rw [h] at hq
  cases hq
  revert hv
  decide

/-- C5 (amended): after appending `g1` (non-empty), `Reset`, appending `g2`,
`Reset`, the stored observations are `g1 ++ g2` without its first `len(g2)`
elements and the counter is `0`; they equal `g2` exactly when the two
generations have the same length. -/
theorem twoGenerations_retention (g1 g2 : List ℚ) (h1 : g1 ≠ []) :
    ∃ q, run NewValues (twoGenerations g1 g2) = some q ∧ q.length = 0 ∧
      q.values = (g1 ++ g2).drop g2.length ∧
      (q.values = g2 ↔ g1.length = g2.length) := by
  have hpos : 0 < g1.length := List.length_pos.mpr h1
  have hA : (setAll NewValues g1).Reset = some { length := 0, values := g1 } := by
    rw [setAll_eq]
    simp [NewValues, Values.Reset]
  have hB : (setAll { length := 0, values := g1 } g2).Reset
      = some { length := 0, values := (g1 ++ g2).drop g2.length } := by
    rw [setAll_eq]
    have hne : ¬ (((g1 ++ g2).length : Int) = 0 + (g2.length : Int)) := by
      simp only [List.length_append]; push_cast; omega
    simp only [Values.Reset, sliceFrom, hne, if_false]
    have hle : (0 : Int) ≤ 0 + (g2.length : Int) ∧
        0 + (g2.length : Int) ≤ ((g1 ++ g2).length : Int) := by
      simp only [List.length_append]; push_cast; omega
    simp [hle]
  refine ⟨{ length := 0, values := (g1 ++ g2).drop g2.length }, ?_, rfl, rfl, ?_⟩
  · simp only [twoGenerations, run_append, run_map_append, Option.bind_some, Option.some_bind,
      run, step, hA, hB]
  · constructor
    · intro hv
      have := congrArg List.length hv
      simp only [List.length_drop, List.length_append] at this
      omega
    · intro hlen
      show (g1 ++ g2).drop g2.length = g2
      rw [← hlen]
      simp

theorem twoGenerations_retention_witness :
    ([1, 2] : List ℚ) ≠ [] ∧
    ∃ q, run NewValues (twoGenerations [1, 2] [3, 4]) = some q ∧ q.length = 0 ∧
      q.values = (([1, 2] : List ℚ) ++ [3, 4]).drop ([3, 4] : List ℚ).length ∧
      (q.values = [3, 4] ↔ ([1, 2] : List ℚ).length = ([3, 4] : List ℚ).length) :=
  ⟨by decide, twoGenerations_retention [1, 2] [3, 4] (by decide)⟩

/-- C6: after any sequence of `Set`/`Reset` calls on a fresh instance no call
panics and `ValueLen()` is at most twice the largest number of observations
appended in a single generation. -/
theorem ValueLen_le_two_maxGeneration (ops : List Op) :
    ∃ q, run NewValues ops = some q ∧ q.ValueLen ≤ 2 * (maxGeneration ops : Int) := by
  obtain ⟨q, hq, _, _, hb⟩ :=
    run_invariant ops NewValues 0 0 rfl (le_refl 0) (by simp [NewValues]) (Nat.zero_le _)
  refine ⟨q, hq, ?_⟩
  simp only [Values.ValueLen, maxGeneration]
  exact_mod_cast hb

/-- C9: in every state reached from `NewValues` by `Set` and `Reset` calls,
`0 ≤ Len() ≤ ValueLen()`, and no `Reset` on the way panics: the slice
`values[length:]` is always in range. -/
theorem Len_le_ValueLen_reachable (ops : List Op) :
    ∃ q, run NewValues ops = some q ∧ 0 ≤ q.Len ∧ q.Len ≤ q.ValueLen ∧
      sliceFrom q.values q.length = some (q.values.drop q.length.toNat) := by
  obtain ⟨q, hq, h0, hle, _⟩ :=
    run_invariant ops NewValues 0 0 rfl (le_refl 0) (by simp [NewValues]) (Nat.zero_le _)
  refine ⟨q, hq, h0, hle, ?_⟩
  simp [sliceFrom, h0, hle]

/-! ## Claims on `Threshold` -/

/-- Entries of the sorted copy compare as their positions do. -/
theorem sortAscending_mono (l : List ℚ) (i j : Nat) (hij : i ≤ j) (hj : j < l.length) :
    ∃ a b, (sortAscending l)[i]? = some a ∧ (sortAscending l)[j]? = some b ∧ a ≤ b := by
  have hlen : (sortAscending l).length = l.length := List.length_insertionSort _ l
  have hs : (sortAscending l).Sorted (fun a b => a ≤ b) := List.sorted_insertionSort _ l
  refine ⟨(sortAscending l).get ⟨i, by omega⟩, (sortAscending l).get ⟨j, by omega⟩, ?_, ?_, ?_⟩
  · simp [List.getElem?_eq_getElem, hlen, lt_of_le_of_lt hij hj]
  · simp [List.getElem?_eq_getElem, hlen, hj]
  · exact hs.rel_get_of_le (show (⟨i, by omega⟩ : Fin _) ≤ ⟨j, by omega⟩ from hij)

theorem sortDescending_anti (l : List ℚ) (i j : Nat) (hij : i ≤ j) (hj : j < l.length) :
    ∃ a b, (sortDescending l)[i]? = some a ∧ (sortDescending l)[j]? = some b ∧ b ≤ a := by
  have hlen : (sortDescending l).length = l.length := List.length_insertionSort _ l
  have hs : (sortDescending l).Sorted (fun a b => a ≥ b) := List.sorted_insertionSort _ l
  refine ⟨(sortDescending l).get ⟨i, by omega⟩, (sortDescending l).get ⟨j, by omega⟩,
    ?_, ?_, ?_⟩
  · simp [List.getElem?_eq_getElem, hlen, lt_of_le_of_lt hij hj]
  · simp [List.getElem?_eq_getElem, hlen, hj]
  · exact hs.rel_get_of_le (show (⟨i, by omega⟩ : Fin _) ≤ ⟨j, by omega⟩ from hij)

/-- C7 (as stated, refuted): after `Set(1)`, `Set(2)`, `Reset()` the storage is
`[1, 2]` and `Threshold(false, 0.5)` returns `0`. -/
theorem Threshold_after_first_Reset_counterexample :
    run NewValues [Op.append 1, Op.append 2, Op.roll] = some { length := 0, values := [1, 2] } ∧
    (Values.mk 0 [1, 2]).Threshold false (1 / 2) = some 0 := by
  refine ⟨by decide, ?_⟩
  simp [Values.Threshold, sortAscending, indexAt]

/-- C7 (amended): after `Set(1)`, `Set(2)`, `Reset()` the storage is still
`[1, 2]`, so a query is computed over `[1, 2]`: `Threshold(false, 0.5)` returns
what it returned before the `Reset`, which is the insufficient-tail sentinel
`0` because `floor(2 * 0.5) + 1 = 2`, and `Threshold(false, 0)` returns `2`. -/
theorem Threshold_after_first_Reset :
    ∃ q, run NewValues [Op.append 1, Op.append 2, Op.roll] = some q ∧
      q.values = [1, 2] ∧
      q.Threshold false (1 / 2) = ((NewValues.Set 1).Set 2).Threshold false (1 / 2) ∧
      q.Threshold false (1 / 2) = some 0 ∧
      ⌊((2 : ℕ) : ℚ) * (1 / 2)⌋ + 1 = 2 ∧
      q.Threshold false 0 = some 2 := by
  refine ⟨{ length := 0, values := [1, 2] }, by decide, rfl, ?_, ?_, by norm_num, ?_⟩ <;>
    simp [Values.Threshold, sortAscending, indexAt, Values.Set, NewValues]

/-- C8: a `Reset` on a state with `length == len(values)` succeeds, keeps the
stored observations, and every `Threshold` query gives the same answer after
it as before it; this is the case of the first `Reset` after appending any
sequence `g` to a fresh instance. -/
theorem Threshold_unchanged_by_Reset :
    (∀ (g : List ℚ) (isReverse : Bool) (prob : ℚ),
      ∃ q, (setAll NewValues g).Reset = some q ∧ q.values = g ∧
        q.Threshold isReverse prob = (setAll NewValues g).Threshold isReverse prob) ∧
    (∀ p : Values, (p.values.length : Int) = p.length →
      ∃ q, p.Reset = some q ∧ q.values = p.values ∧
        ∀ (isReverse : Bool) (prob : ℚ),
          q.Threshold isReverse prob = p.Threshold isReverse prob) := by
  have key : ∀ p : Values, (p.values.length : Int) = p.length →
      ∃ q, p.Reset = some q ∧ q.values = p.values ∧
        ∀ (isReverse : Bool) (prob : ℚ),
          q.Threshold isReverse prob = p.Threshold isReverse prob := by
    intro p h
    refine ⟨{ p with length := 0 }, ?_, rfl, ?_⟩
    · simp [Values.Reset, h]
    · intro isReverse prob
      exact Threshold_of_values_eq p _ rfl isReverse prob
  refine ⟨?_, key⟩
  intro g isReverse prob
  obtain ⟨q, hq, hv, ht⟩ := key (setAll NewValues g) (by simp [setAll_eq, NewValues])
  refine ⟨q, hq, ?_, ht isReverse prob⟩
  rw [hv, setAll_eq]
  simp [NewValues]

theorem Threshold_unchanged_by_Reset_witness :
    (((Values.mk 2 [1, 2]).values.length : Int) = (Values.mk 2 [1, 2]).length) ∧
    ∃ q, (Values.mk 2 [1, 2]).Reset = some q ∧ q.values = (Values.mk 2 [1, 2]).values ∧
      ∀ (isReverse : Bool) (prob : ℚ),
        q.Threshold isReverse prob = (Values.mk 2 [1, 2]).Threshold isReverse prob :=
  ⟨by decide, Threshold_unchanged_by_Reset.2 (Values.mk 2 [1, 2]) (by decide)⟩

/-! ## Claims on `Predict` -/

/-- C10: when every stored observation is strictly below `threshold`,
`Predict(threshold)` returns profit `0` (on empty storage too, where the
returned rate is not a number). -/
theorem Predict_profit_zero_of_all_below (p : Values) (threshold : ℚ)
    (hbelow : ∀ v ∈ p.values, v < threshold) :
    ∃ rate, p.Predict threshold = some (rate, 0) := by
  by_cases hne : p.values = []
  · exact ⟨none, by simp [Values.Predict, hne, fdiv]⟩
  have hpos : 0 < p.values.length := List.length_pos.mpr hne
  have hbase : (0 : ℚ) ≤ 1 / (p.values.length : ℚ) := by positivity
  have hsome : ∀ i : Nat, ∃ v,
      p.Threshold true ((i : ℚ) * (1 / (p.values.length : ℚ))) = some v := fun i =>
    Threshold_isSome_of_nonneg p true _ (mul_nonneg (Nat.cast_nonneg i) hbase)
  choose spread hspread using hsome
  have hfill := predictFill_eq p threshold (1 / (p.values.length : ℚ)) spread
    (List.range p.values.length) (fun i _ => hspread i)
  have hdiv : fdiv 1 (p.values.length : ℚ) = some (1 / (p.values.length : ℚ)) := by
    have : (p.values.length : ℚ) ≠ 0 := by exact_mod_cast hpos.ne.symm
    simp [fdiv, this]
  have hzero : ∀ i : Nat,
      contribution threshold (spread i) ((i : ℚ) * (1 / (p.values.length : ℚ))) = 0 := by
    intro i
    rcases Threshold_zero_or_mem p true _ _ (hspread i) with h | h
    · simp [contribution, h]
    · simp [contribution, hbelow _ h]
  obtain ⟨-, -, hcase⟩ := predictMax_spec ((List.range p.values.length).map (fun i =>
      contribution threshold (spread i) ((i : ℚ) * (1 / (p.values.length : ℚ))))) 0 0 0
  simp only [Values.Predict, hdiv, hfill]
  rcases hcase with ⟨hr, -⟩ | ⟨k, v, hk, -, hlt, -⟩
  · exact ⟨_, by rw [hr]⟩
  · exfalso
    rw [List.getElem?_map] at hk
    cases hrk : (List.range p.values.length)[k]? with
    | none => simp [hrk] at hk
    | some i =>
      simp only [hrk, Option.map_some'] at hk
      rw [hzero i] at hk
      cases hk
      exact lt_irrefl _ hlt

theorem Predict_profit_zero_of_all_below_witness :
    (∀ v ∈ (Values.mk 0 [1, 2]).values, v < 5) ∧
    ∃ rate, (Values.mk 0 [1, 2]).Predict 5 = some (rate, 0) :=
  ⟨by simp; norm_num,
    Predict_profit_zero_of_all_below (Values.mk 0 [1, 2]) 5 (by simp; norm_num)⟩

/-! ## Degenerate inputs -/

/-- C11: on empty storage `Predict` is not guarded: `base = 1 / float64(0)` is
not a number of the model (`fdiv` gives `none`), and the returned rate is
`none` (the NaN `0 * Inf`) instead of `0`, for every counter value and every
threshold; only the profit is `0`. -/
theorem Predict_empty_rate_undefined (length : Int) (threshold : ℚ) :
    fdiv 1 (((Values.mk length []).values.length : ℕ) : ℚ) = none ∧
    (Values.mk length []).Predict threshold = some (none, 0) ∧
    (Values.mk length []).Predict threshold ≠ some (some 0, 0) := by
  refine ⟨by simp [fdiv], by simp [Values.Predict, fdiv], by simp [Values.Predict, fdiv]⟩

/-- C12: `Threshold` can fail: on `[1, 2, 3, 4]` with probability `-0.5` the
index is `floor(4 * -0.5) + 1 = -1`, the guard `len(fx) <= point+1` does not
fire, and the read `fx[-1]` is out of range. -/
theorem Threshold_negative_prob_panics :
    ⌊(([1, 2, 3, 4] : List ℚ).length : ℚ) * (-1 / 2)⌋ + 1 = -1 ∧
    (Values.mk 0 [1, 2, 3, 4]).Threshold false (-1 / 2) = none ∧
    (Values.mk 0 [1, 2, 3, 4]).Threshold true (-1 / 2) = none := by
  refine ⟨by norm_num, ?_, ?_⟩ <;>
    norm_num [Values.Threshold, sortAscending, sortDescending, indexAt]

/-- C13: on empty storage `Threshold` returns `0` without error, for every
flag, every probability and every value of the counter. -/
theorem Threshold_empty (length : Int) (isReverse : Bool) (prob : ℚ) :
    (Values.mk length []).Threshold isReverse prob = some 0 ∧
    NewValues.Threshold isReverse prob = some 0 := by
  constructor <;> simp [Values.Threshold, NewValues]

/-! ## Further claims on the stored state -/

theorem run_twoGenerations (g1 g2 : List ℚ) (h1 : g1 ≠ []) :
    run NewValues (twoGenerations g1 g2) =
      some { length := 0, values := (g1 ++ g2).drop g2.length } := by
  have hpos : 0 < g1.length := List.length_pos.mpr h1
  have hA : (setAll NewValues g1).Reset = some { length := 0, values := g1 } := by
    rw [setAll_eq]
    simp [NewValues, Values.Reset]
  have hB : (setAll { length := 0, values := g1 } g2).Reset
      = some { length := 0, values := (g1 ++ g2).drop g2.length } := by
    rw [setAll_eq]
    have hne : ¬ (((g1 ++ g2).length : Int) = 0 + (g2.length : Int)) := by
      simp only [List.length_append]; push_cast; omega
    simp only [Values.Reset, sliceFrom, hne, if_false]
    have hle : (0 : Int) ≤ 0 + (g2.length : Int) ∧
        0 + (g2.length : Int) ≤ ((g1 ++ g2).length : Int) := by
      simp only [List.length_append]; push_cast; omega
    simp [hle]
  simp only [twoGenerations, run_append, run_map_append, Option.bind_some, Option.some_bind,
    run, step, hA, hB]

/-- C15: for non-empty `g1` and `g2` of the same length (`g2` is then
non-empty as well), appending `g1`,
`Reset`, appending `g2`, `Reset` on a fresh instance leaves the stored
observations equal to `g2` in arrival order and `Len()` equal to `0`. -/
theorem twoGenerations_equal_length (g1 g2 : List ℚ) (h1 : g1 ≠ [])
    (hlen : g1.length = g2.length) :
    ∃ q, run NewValues (twoGenerations g1 g2) = some q ∧ q.Copy = g2 ∧ q.Len = 0 := by
  refine ⟨_, run_twoGenerations g1 g2 h1, ?_, rfl⟩
  show (g1 ++ g2).drop g2.length = g2
  rw [← hlen]
  simp

theorem twoGenerations_equal_length_witness :
    ([1, 2] : List ℚ) ≠ [] ∧
    ([1, 2] : List ℚ).length = ([3, 4] : List ℚ).length ∧
    ∃ q, run NewValues (twoGenerations [1, 2] [3, 4]) = some q ∧ q.Copy = [3, 4] ∧ q.Len = 0 :=
  ⟨by decide, by decide,
    twoGenerations_equal_length [1, 2] [3, 4] (by decide) (by decide)⟩

theorem run_Len (ops : List Op) (p : Values) (cur : Nat)
    (hl : p.length = (cur : Int)) (hcv : cur ≤ p.values.length) :
    ∃ q, run p ops = some q ∧ q.length = (appendsSinceRollAux ops cur : Int) := by
  induction ops generalizing p cur with
  | nil => exact ⟨p, rfl, hl⟩
  | cons o ops ih =>
    cases o with
    | append v =>
      simp only [run, step, appendsSinceRollAux]
      apply ih (p.Set v) (cur + 1)
      · simp only [Values.Set, hl]; push_cast; rfl
      · simp only [Values.Set, List.length_append, List.length_singleton]; omega
    | roll =>
      have hr := Reset_of_le p (by omega) (by omega)
      simp only [run, step, appendsSinceRollAux, hr]
      exact ih _ 0 rfl (Nat.zero_le _)

/-- C16: postcondition and frame of `Set`: the stored observations become the
previous sequence followed by `value`, `ValueLen()` and `Len()` each grow by
exactly `1`; hence after any call sequence on a fresh instance `Len()` is the
number of `Set` calls since the most recent `Reset` (or since creation). -/
theorem Set_postcondition :
    (∀ (p : Values) (value : ℚ),
      (p.Set value).Copy = p.Copy ++ [value] ∧
      (p.Set value).ValueLen = p.ValueLen + 1 ∧
      (p.Set value).Len = p.Len + 1) ∧
    (∀ ops : List Op, ∃ q, run NewValues ops = some q ∧ q.Len = (appendsSinceRoll ops : Int)) := by
  constructor
  · intro p value
    refine ⟨rfl, ?_, rfl⟩
    simp [Values.ValueLen, Values.Set]
  · intro ops
    exact run_Len ops NewValues 0 rfl (Nat.zero_le _)

/-! ## Rank of the value returned by `Threshold` -/

/-- In a list sorted by `r`, the entry `v` at position `j` has at least
`j + 1` entries `x` with `r x v` and at least `length - j` entries `x` with
`r v x`. -/
theorem sorted_countP_bounds (r : ℚ → ℚ → Prop) [DecidableRel r] [IsRefl ℚ r]
    (s : List ℚ) (hs : s.Sorted r) (j : Nat) (v : ℚ) (hv : s[j]? = some v) :
    j + 1 ≤ s.countP (fun x => decide (r x v)) ∧
    s.length ≤ s.countP (fun x => decide (r v x)) + j := by
  obtain ⟨hj, hjv⟩ := List.getElem?_eq_some.mp hv
  have hsplit : s = s.take j ++ v :: s.drop (j + 1) := by
    rw [← hjv, ← List.drop_eq_getElem_cons hj, List.take_append_drop]
  have hpw : (s.take j ++ v :: s.drop (j + 1)).Pairwise r := by
    rw [← hsplit]; exact hs
  obtain ⟨-, htail, hcross⟩ := List.pairwise_append.mp hpw
  have hbefore : (s.take j).countP (fun x => decide (r x v)) = (s.take j).length := by
    rw [List.countP_eq_length]
    intro a ha
    exact decide_eq_true (hcross a ha v (List.mem_cons_self _ _))
  have hafter : (v :: s.drop (j + 1)).countP (fun x => decide (r v x)) =
      (v :: s.drop (j + 1)).length := by
    rw [List.countP_eq_length]
    intro a ha
    rcases List.mem_cons.mp ha with h | h
    · rw [h]; exact decide_eq_true (refl v)
    · exact decide_eq_true ((List.pairwise_cons.mp htail).1 a h)
  have hlt : (s.take j).length = j := by
    rw [List.length_take]; omega
  have hld : (v :: s.drop (j + 1)).length + j = s.length := by
    simp only [List.length_cons, List.length_drop]; omega
  have hself : decide (r v v) = true := decide_eq_true (refl v)
  constructor
  · have h1 : s.countP (fun x => decide (r x v)) =
        (s.take j).countP (fun x => decide (r x v)) +
          (v :: s.drop (j + 1)).countP (fun x => decide (r x v)) := by
      conv_lhs => rw [hsplit]
      rw [List.countP_append]
    rw [h1, hbefore, hlt, List.countP_cons, hself]
    simp
  · have h2 : s.countP (fun x => decide (r v x)) =
        (s.take j).countP (fun x => decide (r v x)) +
          (v :: s.drop (j + 1)).countP (fun x => decide (r v x)) := by
      conv_lhs => rw [hsplit]
      rw [List.countP_append]
    rw [h2, hafter]
    omega

/-! ## The retained window -/

/-- A `Reset` on a state holding `s > 0` observations beyond the current
generation drops the current generation's count from the front and leaves `s`. -/
theorem Reset_window (p : Values) (s : Nat) (hs : 0 < s) (h0 : 0 ≤ p.length)
    (hlen : (p.values.length : Int) = (s : Int) + p.length) :
    p.Reset = some { length := 0, values := p.values.drop p.length.toNat } ∧
    (p.values.drop p.length.toNat).length = s := by
  constructor
  · rw [Reset_of_le p h0 (by omega), if_neg (by omega)]
  · rw [List.length_drop]; omega

theorem suffix_drop (acc l : List ℚ) (k : Nat) (h : ∃ pre, acc = pre ++ l) :
    ∃ pre, acc = pre ++ l.drop k := by
  obtain ⟨pre, hpre⟩ := h
  refine ⟨pre ++ l.take k, ?_⟩
  rw [List.append_assoc, List.take_append_drop]
  exact hpre

/-- Once the storage holds `s > 0` observations beyond the current generation,
every `Reset` brings it back to the `s` most recent observations. -/
theorem run_window (ops : List Op) (p : Values) (acc : List ℚ) (s : Nat) (hs : 0 < s)
    (h0 : 0 ≤ p.length) (hlen : (p.values.length : Int) = (s : Int) + p.length)
    (hsuf : ∃ pre, acc = pre ++ p.values) :
    ∃ q, run p (ops ++ [Op.roll]) = some q ∧ q.length = 0 ∧ q.values.length = s ∧
      ∃ pre, acc ++ appended ops = pre ++ q.values := by
  induction ops generalizing p acc with
  | nil =>
    obtain ⟨hreset, hdlen⟩ := Reset_window p s hs h0 hlen
    refine ⟨{ length := 0, values := p.values.drop p.length.toNat }, ?_, rfl, hdlen, ?_⟩
    · simp only [List.nil_append, run, step, hreset]
    · simpa [appended] using suffix_drop acc p.values p.length.toNat hsuf
  | cons o ops ih =>
    cases o with
    | append v =>
      have hS0 : 0 ≤ (p.Set v).length := by simp only [Values.Set]; omega
      have hSlen : ((p.Set v).values.length : Int) = (s : Int) + (p.Set v).length := by
        simp only [Values.Set, List.length_append, List.length_singleton]; push_cast; omega
      have hSsuf : ∃ pre, acc ++ [v] = pre ++ (p.Set v).values := by
        obtain ⟨pre, hpre⟩ := hsuf
        exact ⟨pre, by simp [Values.Set, hpre]⟩
      obtain ⟨q, hq, hq0, hqs, pre, hpre⟩ := ih (p.Set v) (acc ++ [v]) hS0 hSlen hSsuf
      refine ⟨q, ?_, hq0, hqs, pre, ?_⟩
      · simpa only [List.cons_append, run, step] using hq
      · simpa [appended] using hpre
    | roll =>
      obtain ⟨hreset, hdlen⟩ := Reset_window p s hs h0 hlen
      obtain ⟨q, hq, hq0, hqs, pre, hpre⟩ :=
        ih { length := 0, values := p.values.drop p.length.toNat } acc (le_refl _)
          (by show (((p.values.drop p.length.toNat).length : ℕ) : Int) = (s : Int) + 0
              rw [hdlen]; simp)
          (suffix_drop acc p.values p.length.toNat hsuf)
      refine ⟨q, ?_, hq0, hqs, pre, ?_⟩
      · simpa only [List.cons_append, run, step, hreset] using hq
      · simpa [appended] using hpre

theorem Reset_of_eq (p : Values) (hl : (p.values.length : Int) = p.length) :
    p.Reset = some { length := 0, values := p.values } := by
  simp [Values.Reset, hl]

/-- Up to and including the first `Reset` on non-empty storage, and from then
on by `run_window`. -/
theorem run_first_roll (ops : List Op) (p : Values) (s : Nat)
    (hl : (p.values.length : Int) = p.length)
    (hf : firstRollSize p (ops ++ [Op.roll]) = some s) :
    ∃ q, run p (ops ++ [Op.roll]) = some q ∧ q.length = 0 ∧ q.values.length = s ∧
      ∃ pre, p.values ++ appended ops = pre ++ q.values := by
  induction ops generalizing p with
  | nil =>
    have hreset := Reset_of_eq p hl
    simp only [List.nil_append, firstRollSize, hreset] at hf
    by_cases hz : p.values.length ≠ 0
    · rw [if_pos hz] at hf
      refine ⟨{ length := 0, values := p.values }, ?_, rfl, Option.some.inj hf, [], ?_⟩
      · simp only [List.nil_append, run, step, hreset]
      · simp [appended]
    · rw [if_neg hz] at hf
      cases hf
  | cons o ops ih =>
    cases o with
    | append v =>
      have hSl : ((p.Set v).values.length : Int) = (p.Set v).length := by
        simp only [Values.Set, List.length_append, List.length_singleton]; push_cast; omega
      obtain ⟨q, hq, hq0, hqs, pre, hpre⟩ := ih (p.Set v) hSl
        (by simpa only [List.cons_append, firstRollSize] using hf)
      refine ⟨q, ?_, hq0, hqs, pre, ?_⟩
      · simpa only [List.cons_append, run, step] using hq
      · simpa [appended, Values.Set] using hpre
    | roll =>
      have hreset := Reset_of_eq p hl
      simp only [List.cons_append, firstRollSize, hreset] at hf
      by_cases hz : p.values.length ≠ 0
      · rw [if_pos hz] at hf
        have hs : p.values.length = s := Option.some.inj hf
        obtain ⟨q, hq, hq0, hqs, pre, hpre⟩ :=
          run_window ops { length := 0, values := p.values } p.values s (by omega) (le_refl _)
            (by show ((p.values.length : ℕ) : Int) = (s : Int) + 0
                rw [hs]; simp)
            ⟨[], rfl⟩
        refine ⟨q, ?_, hq0, hqs, pre, ?_⟩
        · simpa only [List.cons_append, run, step, hreset] using hq
        · simpa [appended] using hpre
      · rw [if_neg hz] at hf
        have hnil : p.values = [] := List.length_eq_zero.mp (not_not.mp hz)
        obtain ⟨q, hq, hq0, hqs, pre, hpre⟩ := ih { length := 0, values := p.values }
          (by simp [hnil]) hf
        refine ⟨q, ?_, hq0, hqs, pre, ?_⟩
        · simpa only [List.cons_append, run, step, hreset] using hq
        · simpa [appended] using hpre

/-- C18: the retained size is fixed by the first generation.  Let `s` be the
storage size at the first `Reset` made on non-empty storage.  After that
`Reset` and after every later one (the last call of `ops ++ [roll]`),
`Len()` is `0`, `ValueLen()` is `s` and the stored observations are the `s`
most recently appended values in arrival order. -/
theorem retained_size_fixed (ops : List Op) (s : Nat)
    (hf : firstRollSize NewValues (ops ++ [Op.roll]) = some s) :
    ∃ q, run NewValues (ops ++ [Op.roll]) = some q ∧ q.Len = 0 ∧ q.ValueLen = (s : Int) ∧
      q.Copy = (appended ops).drop ((appended ops).length - s) := by
  obtain ⟨q, hq, hq0, hqs, pre, hpre⟩ := run_first_roll ops NewValues s rfl hf
  refine ⟨q, hq, hq0, ?_, ?_⟩
  · simp [Values.ValueLen, hqs]
  · have hall : appended ops = pre ++ q.values := by simpa [NewValues] using hpre
    have hlen : (appended ops).length - s = pre.length := by
      rw [hall, List.length_append, hqs]; omega
    rw [hlen, hall]
    simp [Values.Copy]

theorem retained_size_fixed_witness :
    firstRollSize NewValues
      ([Op.append 1, Op.append 2, Op.roll, Op.append 3, Op.append 4, Op.append 5] ++ [Op.roll])
      = some 2 ∧
    ∃ q, run NewValues
        ([Op.append 1, Op.append 2, Op.roll, Op.append 3, Op.append 4, Op.append 5] ++ [Op.roll])
        = some q ∧ q.Len = 0 ∧ q.ValueLen = ((2 : ℕ) : Int) ∧
      q.Copy = (appended
          [Op.append 1, Op.append 2, Op.roll, Op.append 3, Op.append 4, Op.append 5]).drop
        ((appended
          [Op.append 1, Op.append 2, Op.roll, Op.append 3, Op.append 4, Op.append 5]).length - 2) :=
  ⟨by decide,
    retained_size_fixed
      [Op.append 1, Op.append 2, Op.roll, Op.append 3, Op.append 4, Op.append 5] 2 (by decide)⟩

/-! ## Range of the result of `Predict` -/

/-- On non-empty storage `Predict` returns the outcome of the scan
`predictMax` over the list of contributions. -/
theorem Predict_of_ne_nil (p : Values) (threshold : ℚ) (hne : p.values ≠ []) :
    ∃ fx : List ℚ, fx.length = p.values.length ∧
      (∀ (k : Nat) (v : ℚ), fx[k]? = some v → k < p.values.length) ∧
      p.Predict threshold =
        some (some (((predictMax fx 0 (0, 0)).2 : ℚ) * (1 / (p.values.length : ℚ))),
          (predictMax fx 0 (0, 0)).1) := by
  have hpos : 0 < p.values.length := List.length_pos.mpr hne
  have hbase : (0 : ℚ) ≤ 1 / (p.values.length : ℚ) := by positivity
  have hsome : ∀ i : Nat, ∃ v,
      p.Threshold true ((i : ℚ) * (1 / (p.values.length : ℚ))) = some v := fun i =>
    Threshold_isSome_of_nonneg p true _ (mul_nonneg (Nat.cast_nonneg i) hbase)
  choose spread hspread using hsome
  have hfill := predictFill_eq p threshold (1 / (p.values.length : ℚ)) spread
    (List.range p.values.length) (fun i _ => hspread i)
  have hdiv : fdiv 1 (p.values.length : ℚ) = some (1 / (p.values.length : ℚ)) := by
    have : (p.values.length : ℚ) ≠ 0 := by exact_mod_cast hpos.ne.symm
    simp [fdiv, this]
  have hfxlen : ((List.range p.values.length).map (fun i =>
      contribution threshold (spread i) ((i : ℚ) * (1 / (p.values.length : ℚ))))).length =
      p.values.length := by simp
  refine ⟨_, hfxlen, ?_, ?_⟩
  · intro k v hk
    obtain ⟨hlt, -⟩ := List.getElem?_eq_some.mp hk
    rw [hfxlen] at hlt
    exact hlt
  · simp only [Values.Predict, hdiv, hfill]

/-- C20: range of the result of `Predict` on non-empty storage of `n`
observations: the rate is `i / n` for an index `0 ≤ i < n`, so `0 ≤ rate < 1`;
the profit is `≥ 0`; the rate is `0` whenever the profit is `0`; and the
contribution at index `0` is `0` whatever the spread. -/
theorem Predict_range (p : Values) (threshold : ℚ) (hne : p.values ≠ []) :
    ∃ (i : Nat) (profit : ℚ), i < p.values.length ∧
      p.Predict threshold = some (some ((i : ℚ) / (p.values.length : ℚ)), profit) ∧
      0 ≤ (i : ℚ) / (p.values.length : ℚ) ∧ (i : ℚ) / (p.values.length : ℚ) < 1 ∧
      0 ≤ profit ∧ (profit = 0 → i = 0) ∧
      ∀ spread : ℚ,
        contribution threshold spread (((0 : ℕ) : ℚ) * (1 / (p.values.length : ℚ))) = 0 := by
  have hpos : 0 < p.values.length := List.length_pos.mpr hne
  have hposq : (0 : ℚ) < (p.values.length : ℚ) := by exact_mod_cast hpos
  obtain ⟨fx, -, hidx, hP⟩ := Predict_of_ne_nil p threshold hne
  obtain ⟨-, -, hcase⟩ := predictMax_spec fx 0 0 0
  have hrange : ∀ i : Nat, i < p.values.length →
      0 ≤ (i : ℚ) / (p.values.length : ℚ) ∧ (i : ℚ) / (p.values.length : ℚ) < 1 := by
    intro i hi
    constructor
    · positivity
    · rw [div_lt_one hposq]; exact_mod_cast hi
  have hc0 : ∀ spread : ℚ,
      contribution threshold spread (((0 : ℕ) : ℚ) * (1 / (p.values.length : ℚ))) = 0 := by
    intro spread
    simp [contribution]
  rcases hcase with ⟨hr, -⟩ | ⟨k, v, hk, hr, hlt, -⟩
  · refine ⟨0, 0, hpos, ?_, (hrange 0 hpos).1, (hrange 0 hpos).2, le_refl _, fun _ => rfl, hc0⟩
    rw [hP, hr]
    simp
  · have hkn := hidx k v hk
    refine ⟨k, v, hkn, ?_, (hrange k hkn).1, (hrange k hkn).2, hlt.le, ?_, hc0⟩
    · rw [hP, hr]
      simp [div_eq_mul_inv]
    · intro hv
      exact absurd hv hlt.ne.symm

theorem Predict_range_witness :
    (Values.mk 0 [1, 2, 3, 4]).values ≠ [] ∧
    ∃ (i : Nat) (profit : ℚ), i < (Values.mk 0 [1, 2, 3, 4]).values.length ∧
      (Values.mk 0 [1, 2, 3, 4]).Predict 0 =
        some (some ((i : ℚ) / ((Values.mk 0 [1, 2, 3, 4]).values.length : ℚ)), profit) ∧
      0 ≤ (i : ℚ) / ((Values.mk 0 [1, 2, 3, 4]).values.length : ℚ) ∧
      (i : ℚ) / ((Values.mk 0 [1, 2, 3, 4]).values.length : ℚ) < 1 ∧
      0 ≤ profit ∧ (profit = 0 → i = 0) ∧
      ∀ spread : ℚ,
        contribution 0 spread
          (((0 : ℕ) : ℚ) * (1 / ((Values.mk 0 [1, 2, 3, 4]).values.length : ℚ))) = 0 :=
  ⟨by decide, Predict_range (Values.mk 0 [1, 2, 3, 4]) 0 (by decide)⟩

/-! ## `Threshold` with rounded arithmetic -/

theorem float64Of_eq (n : ℕ) (hn : n ≤ 2 ^ 53) : float64Of n = (n : ℚ) :=
  roundF64_natCast n hn

/-- For a probability in `[0,1]` the rounded product `float64(n) * prob` stays
in `[0, n]`. -/
theorem mulF64_length_bounds (n : ℕ) (prob : ℚ) (hn : n ≤ 2 ^ 53) (h0 : 0 ≤ prob)
    (h1 : prob ≤ 1) :
    0 ≤ mulF64 (float64Of n) prob ∧ mulF64 (float64Of n) prob ≤ (n : ℚ) := by
  rw [float64Of_eq n hn]
  unfold mulF64
  have hn0 : (0 : ℚ) ≤ (n : ℚ) := Nat.cast_nonneg n
  constructor
  · exact roundF64_nonneg (mul_nonneg hn0 h0)
  · calc roundF64 ((n : ℚ) * prob) ≤ roundF64 (n : ℚ) :=
          roundF64_mono (by nlinarith)
      _ = (n : ℚ) := roundF64_natCast n hn

/-- Unfolding of `ThresholdF64` on non-empty storage for a probability in
`[0,1]`, with the index `point` as a natural number. -/
theorem ThresholdF64_of_unit (p : Values) (isReverse : Bool) (prob : ℚ)
    (hne : p.values ≠ []) (hlen : p.values.length ≤ 2 ^ 53) (h0 : 0 ≤ prob) (h1 : prob ≤ 1) :
    p.ThresholdF64 isReverse prob =
      if p.values.length ≤ ⌊mulF64 (float64Of p.values.length) prob⌋₊ + 1 then some 0
      else (if isReverse then sortDescending p.values
            else sortAscending p.values)[⌊mulF64 (float64Of p.values.length) prob⌋₊ + 1]? := by
  have hpos : 0 < p.values.length := List.length_pos.mpr hne
  obtain ⟨hx0, hxn⟩ := mulF64_length_bounds p.values.length prob hlen h0 h1
  have hk : ((⌊mulF64 (float64Of p.values.length) prob⌋₊ : ℕ) : ℤ) =
      ⌊mulF64 (float64Of p.values.length) prob⌋ := Int.natCast_floor_eq_floor hx0
  have hkn : ⌊mulF64 (float64Of p.values.length) prob⌋₊ ≤ p.values.length :=
    Nat.floor_le_of_le hxn
  have hconv : intOfFloor (mulF64 (float64Of p.values.length) prob) =
      some ((⌊mulF64 (float64Of p.values.length) prob⌋₊ : ℕ) : ℤ) := by
    unfold intOfFloor
    rw [← hk, if_pos]
    constructor
    · have : (0 : ℤ) ≤ ((⌊mulF64 (float64Of p.values.length) prob⌋₊ : ℕ) : ℤ) :=
        Int.natCast_nonneg _
      have h63 : -(2 : ℤ) ^ 63 ≤ 0 := by norm_num
      omega
    · have h53 : ((2 : ℕ) ^ 53 : ℤ) < (2 : ℤ) ^ 63 := by norm_num
      have : ((⌊mulF64 (float64Of p.values.length) prob⌋₊ : ℕ) : ℤ) ≤ ((2 : ℕ) ^ 53 : ℤ) := by
        exact_mod_cast le_trans hkn hlen
      omega
  simp only [Values.ThresholdF64, sortedCopy_length, hconv]
  rw [if_neg (by omega)]
  by_cases hle : p.values.length ≤ ⌊mulF64 (float64Of p.values.length) prob⌋₊ + 1
  · rw [if_pos hle, if_pos (by omega)]
  · rw [if_neg hle, if_neg (by omega)]
    simp only [indexAt]
    rw [if_pos (by omega)]
    congr 1

/-! ### Evaluation at concrete inputs -/

theorem float07_eq : roundF64 (7 / 10) = float07 := by
  have h := roundF64_eval (7 / 10) (-1) (-53) 6305039478318694 (by norm_num) (by norm_num)
    (by norm_num) (roundHalfEven_down _ 6305039478318694 (by norm_num) (by norm_num))
  rw [h]
  norm_num [float07]

/-- The product `10 * 0.7` rounds to `7.0`, although `10 * float07 < 7`. -/
theorem mulF64_ten_float07 : mulF64 (float64Of 10) float07 = 7 ∧ 10 * float07 < 7 := by
  have h10 : float64Of 10 = 10 := by simpa using float64Of_eq 10 (by norm_num)
  have h := roundF64_eval (10 * (3152519739159347 / 4503599627370496)) 2 (-50)
    7881299347898368 (by norm_num) (by norm_num) (by norm_num)
    (roundHalfEven_tie_odd _ 7881299347898367 (by norm_num) (by norm_num))
  constructor
  · rw [h10]
    unfold mulF64 float07
    rw [h]
    norm_num
  · norm_num [float07]

theorem floor_ten_float07 :
    ⌊mulF64 (float64Of oneToTen.values.length) float07⌋₊ = 7 := by
  have hl : oneToTen.values.length = 10 := rfl
  rw [hl, mulF64_ten_float07.1]
  norm_num

/-- C14 (amended): rank of the cut value.  On non-empty storage of `n` finite
observations (`n ≤ 2 ^ 53`), for `prob` in `[0,1]` with `k = floor(n * prob)` (the
`float64` product the code computes) and `k + 1 < n`, the result `v` of
`Threshold(false, prob)` is a stored observation, at least `k + 2` stored
observations are `≤ v` and at least `n - k - 1` are `≥ v`; the result `w` of
`Threshold(true, prob)` is a stored observation, at least `k + 2` stored
observations are `≥ w` and at least `n - k - 1` are `≤ w`. -/
theorem ThresholdF64_rank (p : Values) (prob : ℚ) (hne : p.values ≠ [])
    (hlen : p.values.length ≤ 2 ^ 53) (h0 : 0 ≤ prob) (h1 : prob ≤ 1)
    (hk : ⌊mulF64 (float64Of p.values.length) prob⌋₊ + 1 < p.values.length) :
    (∃ v, p.ThresholdF64 false prob = some v ∧ v ∈ p.values ∧
      ⌊mulF64 (float64Of p.values.length) prob⌋₊ + 2 ≤
        p.values.countP (fun x => decide (x ≤ v)) ∧
      p.values.length ≤ p.values.countP (fun x => decide (v ≤ x)) +
        (⌊mulF64 (float64Of p.values.length) prob⌋₊ + 1)) ∧
    (∃ w, p.ThresholdF64 true prob = some w ∧ w ∈ p.values ∧
      ⌊mulF64 (float64Of p.values.length) prob⌋₊ + 2 ≤
        p.values.countP (fun x => decide (x ≥ w)) ∧
      p.values.length ≤ p.values.countP (fun x => decide (w ≥ x)) +
        (⌊mulF64 (float64Of p.values.length) prob⌋₊ + 1)) := by
  have hnk : ¬ p.values.length ≤ ⌊mulF64 (float64Of p.values.length) prob⌋₊ + 1 := by omega
  constructor
  · have hT := ThresholdF64_of_unit p false prob hne hlen h0 h1
    simp only [if_neg hnk, Bool.false_eq_true, if_false] at hT
    have hlens : (sortAscending p.values).length = p.values.length :=
      List.length_insertionSort _ _
    have hperm : (sortAscending p.values).Perm p.values := List.perm_insertionSort _ _
    obtain ⟨v, hv⟩ : ∃ v, (sortAscending p.values)[
        ⌊mulF64 (float64Of p.values.length) prob⌋₊ + 1]? = some v :=
      ⟨_, List.getElem?_eq_getElem (by omega)⟩
    obtain ⟨hc1, hc2⟩ := sorted_countP_bounds (fun a b => a ≤ b) (sortAscending p.values)
      (List.sorted_insertionSort _ _) _ v hv
    refine ⟨v, by rw [hT, hv], hperm.subset (List.getElem?_mem hv), ?_, ?_⟩
    · rw [← hperm.countP_eq]; exact hc1
    · rw [← hperm.countP_eq]; rw [hlens] at hc2; exact hc2
  · have hT := ThresholdF64_of_unit p true prob hne hlen h0 h1
    simp only [if_neg hnk, if_true] at hT
    have hlens : (sortDescending p.values).length = p.values.length :=
      List.length_insertionSort _ _
    have hperm : (sortDescending p.values).Perm p.values := List.perm_insertionSort _ _
    obtain ⟨w, hw⟩ : ∃ w, (sortDescending p.values)[
        ⌊mulF64 (float64Of p.values.length) prob⌋₊ + 1]? = some w :=
      ⟨_, List.getElem?_eq_getElem (by omega)⟩
    obtain ⟨hc1, hc2⟩ := sorted_countP_bounds (fun a b => a ≥ b) (sortDescending p.values)
      (List.sorted_insertionSort _ _) _ w hw
    refine ⟨w, by rw [hT, hw], hperm.subset (List.getElem?_mem hw), ?_, ?_⟩
    · rw [← hperm.countP_eq]; exact hc1
    · rw [← hperm.countP_eq]; rw [hlens] at hc2; exact hc2

theorem ThresholdF64_rank_witness :
    oneToTen.values ≠ [] ∧ oneToTen.values.length ≤ 2 ^ 53 ∧ (0 : ℚ) ≤ float07 ∧ float07 ≤ 1 ∧
    ⌊mulF64 (float64Of oneToTen.values.length) float07⌋₊ + 1 < oneToTen.values.length ∧
    (∃ v, oneToTen.ThresholdF64 false float07 = some v ∧ v ∈ oneToTen.values ∧
      ⌊mulF64 (float64Of oneToTen.values.length) float07⌋₊ + 2 ≤
        oneToTen.values.countP (fun x => decide (x ≤ v)) ∧
      oneToTen.values.length ≤ oneToTen.values.countP (fun x => decide (v ≤ x)) +
        (⌊mulF64 (float64Of oneToTen.values.length) float07⌋₊ + 1)) ∧
    (∃ w, oneToTen.ThresholdF64 true float07 = some w ∧ w ∈ oneToTen.values ∧
      ⌊mulF64 (float64Of oneToTen.values.length) float07⌋₊ + 2 ≤
        oneToTen.values.countP (fun x => decide (x ≥ w)) ∧
      oneToTen.values.length ≤ oneToTen.values.countP (fun x => decide (w ≥ x)) +
        (⌊mulF64 (float64Of oneToTen.values.length) float07⌋₊ + 1)) :=
  ⟨by decide, by norm_num [oneToTen], by norm_num [float07], by norm_num [float07],
    by rw [floor_ten_float07]; decide,
    ThresholdF64_rank oneToTen float07 (by decide) (by norm_num [oneToTen])
      (by norm_num [float07]) (by norm_num [float07]) (by rw [floor_ten_float07]; decide)⟩

/-- C19 (amended): on non-empty storage of `n` finite observations
(`n ≤ 2 ^ 53`), for
`0 ≤ pr ≤ qr ≤ 1` with `floor(n * qr) + 1 < n` (the `float64` product the
code computes; neither call is answered by the insufficient-tail sentinel),
`Threshold(false, pr) ≤ Threshold(false, qr)` and
`Threshold(true, pr) ≥ Threshold(true, qr)`. -/
theorem ThresholdF64_monotone_below_sentinel (p : Values) (pr qr : ℚ) (hne : p.values ≠ [])
    (hlen : p.values.length ≤ 2 ^ 53) (h0 : 0 ≤ pr) (hpq : pr ≤ qr) (h1 : qr ≤ 1)
    (hq : ⌊mulF64 (float64Of p.values.length) qr⌋₊ + 1 < p.values.length) :
    (∃ a b, p.ThresholdF64 false pr = some a ∧ p.ThresholdF64 false qr = some b ∧ a ≤ b) ∧
    (∃ c d, p.ThresholdF64 true pr = some c ∧ p.ThresholdF64 true qr = some d ∧ c ≥ d) := by
  have hn0 : (0 : ℚ) ≤ float64Of p.values.length := by
    rw [float64Of_eq _ hlen]; exact Nat.cast_nonneg _
  have hk : ⌊mulF64 (float64Of p.values.length) pr⌋₊ ≤
      ⌊mulF64 (float64Of p.values.length) qr⌋₊ :=
    Nat.floor_mono (roundF64_mono (mul_le_mul_of_nonneg_left hpq hn0))
  have h0q : 0 ≤ qr := le_trans h0 hpq
  have h1p : pr ≤ 1 := le_trans hpq h1
  have hnp : ¬ p.values.length ≤ ⌊mulF64 (float64Of p.values.length) pr⌋₊ + 1 := by omega
  have hnq : ¬ p.values.length ≤ ⌊mulF64 (float64Of p.values.length) qr⌋₊ + 1 := by omega
  constructor
  · obtain ⟨a, b, ha, hb, hab⟩ := sortAscending_mono p.values _ _ (Nat.succ_le_succ hk) hq
    refine ⟨a, b, ?_, ?_, hab⟩
    · rw [ThresholdF64_of_unit p false pr hne hlen h0 h1p, if_neg hnp]; simpa using ha
    · rw [ThresholdF64_of_unit p false qr hne hlen h0q h1, if_neg hnq]; simpa using hb
  · obtain ⟨c, d, hc, hd, hdc⟩ := sortDescending_anti p.values _ _ (Nat.succ_le_succ hk) hq
    refine ⟨c, d, ?_, ?_, hdc⟩
    · rw [ThresholdF64_of_unit p true pr hne hlen h0 h1p, if_neg hnp]; simpa using hc
    · rw [ThresholdF64_of_unit p true qr hne hlen h0q h1, if_neg hnq]; simpa using hd

theorem floor_five_half :
    ⌊mulF64 (float64Of (Values.mk 0 [5, 1, 4, 2, 3]).values.length) (1 / 2)⌋₊ = 2 := by
  have hl : (Values.mk 0 [5, 1, 4, 2, 3]).values.length = 5 := rfl
  have h5 : float64Of 5 = 5 := by simpa using float64Of_eq 5 (by norm_num)
  have h := roundF64_dyadic 5 (-1) (by decide) (by norm_num)
  have h' : roundF64 (5 * (1 / 2)) = 5 / 2 := by
    norm_num at h ⊢
    exact h
  rw [hl, h5]
  unfold mulF64
  rw [h']
  rw [Nat.floor_eq_iff (by norm_num)]
  norm_num

theorem ThresholdF64_monotone_below_sentinel_witness :
    (Values.mk 0 [5, 1, 4, 2, 3]).values ≠ [] ∧ (Values.mk 0 [5, 1, 4, 2, 3]).values.length ≤
        2 ^ 53 ∧ (0 : ℚ) ≤ 1 / 4 ∧ (1 / 4 : ℚ) ≤ 1 / 2 ∧
    (1 / 2 : ℚ) ≤ 1 ∧
    ⌊mulF64 (float64Of (Values.mk 0 [5, 1, 4, 2, 3]).values.length) (1 / 2)⌋₊ + 1 <
        (Values.mk 0 [5, 1, 4, 2, 3]).values.length ∧
    (∃ a b, (Values.mk 0 [5, 1, 4, 2, 3]).ThresholdF64 false (1 / 4) = some a ∧
        (Values.mk 0 [5, 1, 4, 2, 3]).ThresholdF64 false (1 / 2) = some b ∧ a ≤ b) ∧
    (∃ c d, (Values.mk 0 [5, 1, 4, 2, 3]).ThresholdF64 true (1 / 4) = some c ∧
        (Values.mk 0 [5, 1, 4, 2, 3]).ThresholdF64 true (1 / 2) = some d ∧ c ≥ d) :=
  ⟨by decide, by norm_num, by norm_num, by norm_num, by norm_num,
    by rw [floor_five_half]; decide,
    ThresholdF64_monotone_below_sentinel (Values.mk 0 [5, 1, 4, 2, 3]) (1 / 4) (1 / 2) (by decide)
        (by norm_num)
      (by norm_num) (by norm_num) (by norm_num) (by rw [floor_five_half]; decide)⟩


theorem floor_four_probs (p : Values) (h : p.values.length = 4) :
    ⌊mulF64 (float64Of p.values.length) (1 / 2)⌋₊ = 2 ∧
    ⌊mulF64 (float64Of p.values.length) 1⌋₊ = 4 := by
  have h4 : float64Of 4 = 4 := by simpa using float64Of_eq 4 (by norm_num)
  have h2 : roundF64 2 = 2 := by simpa using roundF64_natCast 2 (by norm_num)
  have h4' : roundF64 4 = 4 := by simpa using roundF64_natCast 4 (by norm_num)
  rw [h, h4]
  unfold mulF64
  constructor
  · rw [show (4 : ℚ) * (1 / 2) = 2 by norm_num, h2]
    norm_num
  · rw [mul_one, h4']
    norm_num

/-! ## `Predict` with rounded arithmetic -/

theorem ThresholdF64_isSome_of_unit (p : Values) (isReverse : Bool) (prob : ℚ)
    (hne : p.values ≠ []) (hlen : p.values.length ≤ 2 ^ 53) (h0 : 0 ≤ prob) (h1 : prob ≤ 1) :
    ∃ v, p.ThresholdF64 isReverse prob = some v := by
  rw [ThresholdF64_of_unit p isReverse prob hne hlen h0 h1]
  by_cases hle : p.values.length ≤ ⌊mulF64 (float64Of p.values.length) prob⌋₊ + 1
  · exact ⟨0, by rw [if_pos hle]⟩
  · rw [if_neg hle]
    have hlt : ⌊mulF64 (float64Of p.values.length) prob⌋₊ + 1 <
        (if isReverse then sortDescending p.values else sortAscending p.values).length := by
      rw [sortedCopy_length]; omega
    exact ⟨_, List.getElem?_eq_getElem hlt⟩

theorem divF64_length (n : ℕ) (hn0 : 0 < n) (hn : n ≤ 2 ^ 53) :
    divF64 1 (float64Of n) = some (roundF64 (1 / (n : ℚ))) := by
  have : (n : ℚ) ≠ 0 := by exact_mod_cast hn0.ne'
  simp [divF64, float64Of_eq n hn, this]

/-- The candidate rates `float64(i) * base` of `Predict` lie in `[0,1]`. -/
theorem ratio_bounds (n i : ℕ) (hn : n ≤ 2 ^ 53) (hi : i < n) :
    0 ≤ mulF64 (float64Of i) (roundF64 (1 / (n : ℚ))) ∧
    mulF64 (float64Of i) (roundF64 (1 / (n : ℚ))) ≤ 1 := by
  rw [float64Of_eq i (le_trans hi.le hn)]
  unfold mulF64
  constructor
  · exact roundF64_nonneg (mul_nonneg (Nat.cast_nonneg i)
      (roundF64_nonneg (by positivity)))
  · exact roundF64_ratio_le_one n i hn hi

theorem predictFillF64_eq (p : Values) (threshold base : ℚ) (spread : Nat → ℚ)
    (is : List Nat)
    (h : ∀ i ∈ is, p.ThresholdF64 true (mulF64 (float64Of i) base) = some (spread i)) :
    predictFillF64 p threshold base is =
      some (is.map (fun i =>
        contributionF64 threshold (spread i) (mulF64 (float64Of i) base))) := by
  induction is with
  | nil => rfl
  | cons i rest ih =>
    have hi := h i (List.mem_cons_self _ _)
    have hrest := ih (fun j hj => h j (List.mem_cons_of_mem _ hj))
    simp only [predictFillF64, hi, hrest, List.map_cons, contributionF64]

theorem contributionF64_zero (threshold spread base : ℚ) :
    contributionF64 threshold spread (mulF64 (float64Of 0) base) = 0 := by
  have h0 : float64Of 0 = 0 := by simpa using float64Of_eq 0 (by norm_num)
  unfold contributionF64 mulF64
  rw [h0, zero_mul, roundF64_zero, mul_zero, roundF64_zero]
  simp

/-- C3 (amended): `Predict` equals its reference definition, every operation
being the `float64` operation the code performs.  On non-empty storage of `n`
finite observations (`n ≤ 2 ^ 53`), with `base = 1 / n` and `ratio i = i * base`,
every call `Threshold(true, ratio i)` for `i < n` returns a value `spread i`,
and with the contributions
`c i = contributionF64 threshold (spread i) (ratio i)` the result of
`Predict` is `(ratio istar, c istar)` where `c istar` is the maximum of the
`c i` and `istar` is the smallest index attaining it. -/
theorem PredictF64_eq_reference (p : Values) (threshold : ℚ) (hne : p.values ≠ [])
    (hlen : p.values.length ≤ 2 ^ 53) :
    ∃ (base : ℚ) (spread : Nat → ℚ),
      divF64 1 (float64Of p.values.length) = some base ∧
      (∀ i, i < p.values.length →
        p.ThresholdF64 true (mulF64 (float64Of i) base) = some (spread i)) ∧
      ∃ istar, istar < p.values.length ∧
        p.PredictF64 threshold =
          some (some (mulF64 (float64Of istar) base),
            contributionF64 threshold (spread istar) (mulF64 (float64Of istar) base)) ∧
        (∀ i, i < p.values.length →
          contributionF64 threshold (spread i) (mulF64 (float64Of i) base) ≤
            contributionF64 threshold (spread istar) (mulF64 (float64Of istar) base)) ∧
        (∀ i, i < istar →
          contributionF64 threshold (spread i) (mulF64 (float64Of i) base) <
            contributionF64 threshold (spread istar) (mulF64 (float64Of istar) base)) := by
  have hpos : 0 < p.values.length := List.length_pos.mpr hne
  have hdiv := divF64_length p.values.length hpos hlen
  have hsome : ∀ i : Nat, ∃ v, i < p.values.length →
      p.ThresholdF64 true (mulF64 (float64Of i) (roundF64 (1 / (p.values.length : ℚ)))) =
        some v := by
    intro i
    by_cases hi : i < p.values.length
    · obtain ⟨hr0, hr1⟩ := ratio_bounds p.values.length i hlen hi
      obtain ⟨v, hv⟩ := ThresholdF64_isSome_of_unit p true _ hne hlen hr0 hr1
      exact ⟨v, fun _ => hv⟩
    · exact ⟨0, fun h => absurd h hi⟩
  choose spread hspread using hsome
  refine ⟨roundF64 (1 / (p.values.length : ℚ)), spread, hdiv, hspread, ?_⟩
  have hfill := predictFillF64_eq p threshold (roundF64 (1 / (p.values.length : ℚ))) spread
    (List.range p.values.length) (fun i hi => hspread i (List.mem_range.mp hi))
  have hget : ∀ (k : Nat) (v : ℚ), ((List.range p.values.length).map (fun i =>
      contributionF64 threshold (spread i)
        (mulF64 (float64Of i) (roundF64 (1 / (p.values.length : ℚ))))))[k]? = some v →
      k < p.values.length ∧
        v = contributionF64 threshold (spread k)
          (mulF64 (float64Of k) (roundF64 (1 / (p.values.length : ℚ)))) := by
    intro k v hk
    rw [List.getElem?_map] at hk
    by_cases hlt : k < p.values.length
    · rw [List.getElem?_range hlt] at hk
      exact ⟨hlt, by simpa using hk.symm⟩
    · rw [List.getElem?_eq_none (by simpa using hlt)] at hk
      simp at hk
  have hget2 : ∀ k, k < p.values.length → ((List.range p.values.length).map (fun i =>
      contributionF64 threshold (spread i)
        (mulF64 (float64Of i) (roundF64 (1 / (p.values.length : ℚ))))))[k]? =
      some (contributionF64 threshold (spread k)
        (mulF64 (float64Of k) (roundF64 (1 / (p.values.length : ℚ))))) := by
    intro k hk
    rw [List.getElem?_map, List.getElem?_range hk]
    rfl
  obtain ⟨hall, -, hcase⟩ := predictMax_spec ((List.range p.values.length).map (fun i =>
      contributionF64 threshold (spread i)
        (mulF64 (float64Of i) (roundF64 (1 / (p.values.length : ℚ)))))) 0 0 0
  have hc0 := contributionF64_zero threshold (spread 0) (roundF64 (1 / (p.values.length : ℚ)))
  simp only [Values.PredictF64, hdiv, hfill]
  rcases hcase with ⟨hr, hle⟩ | ⟨k, v, hk, hr, hlt, hbefore⟩
  · refine ⟨0, hpos, ?_, ?_, ?_⟩
    · rw [hr, hc0]
    · intro i hi
      rw [hc0]
      exact hle i _ (hget2 i hi)
    · intro i hi
      exact absurd hi (Nat.not_lt_zero i)
  · obtain ⟨hkn, hv⟩ := hget k v hk
    refine ⟨k, hkn, ?_, ?_, ?_⟩
    · rw [hr, ← hv]
      simp
    · intro i hi
      have := hall i _ (hget2 i hi)
      rw [hr] at this
      rw [← hv]
      exact this
    · intro i hi
      rw [← hv]
      exact hbefore i _ hi (hget2 i (lt_trans hi hkn))

/-! ### Evaluation of `Predict` at concrete inputs -/

/-- Evaluation of `Predict(0)` on `[3, 3, 9, 9, 9]`: the contributions at the
indices `1` and `3` are `9 * 0.2` and `3 * 0.6`, equal in exact arithmetic;
in `float64` they are `1.8` and `1.8000000000000003`, and the result is the
index `3`: rate `0.6000000000000001`, profit `1.8000000000000003`. -/
theorem PredictF64_tie_trace :
    threesAndNines.PredictF64 0 =
        some (some (1351079888211149 / 2251799813685248), (4053239664633447 / 2251799813685248)) ∧
    (9 : ℚ) * (1 / 5) = 3 * (3 / 5) := by
  have hne : threesAndNines.values ≠ [] := by decide
  have hl : threesAndNines.values.length = 5 := rfl
  have hlen : threesAndNines.values.length ≤ 2 ^ 53 := by rw [hl]; norm_num
  have hn : float64Of 5 = 5 := by simpa using float64Of_eq 5 (by norm_num)
  have hb : roundF64 (1 / 5) = (3602879701896397 / 18014398509481984) :=
      (by
        have h := roundF64_eval (1 / 5) (-3) (-55) 7205759403792794 (by norm_num) (by norm_num)
          (by norm_num) (roundHalfEven_up _ 7205759403792793 (by norm_num) (by norm_num))
        rw [h]; norm_num)
  have hbase : divF64 1 (float64Of threesAndNines.values.length) =
      some (3602879701896397 / 18014398509481984) := by
    rw [divF64_length _ (by decide) hlen, hl]
    simp only [Nat.cast_ofNat]
    rw [hb]
  have hs : sortDescending threesAndNines.values = [9, 9, 9, 3, 3] := by
    show sortDescending ([3, 3, 9, 9, 9] : List ℚ) = [9, 9, 9, 3, 3]
    norm_num [sortDescending]
  have hf0 : float64Of 0 = 0 := by simpa using float64Of_eq 0 (by norm_num)
  have hr0 : mulF64 (float64Of 0) (3602879701896397 / 18014398509481984) = 0 := by
    unfold mulF64
    rw [hf0]
    exact (by simp [roundF64_zero])
  have hx0 : mulF64 (float64Of threesAndNines.values.length) 0 = 0 := by
    rw [hl, hn]
    unfold mulF64
    exact (by simp [roundF64_zero])
  have hk0 : ⌊(0 : ℚ)⌋₊ = 0 := by
    rw [Nat.floor_eq_iff (by norm_num)]
    norm_num
  have hT0 : threesAndNines.ThresholdF64 true 0 = some 9 := by
    rw [ThresholdF64_of_unit threesAndNines true 0 hne hlen (by norm_num) (by norm_num), hx0, hk0]
    simp [hs, hl]
  have hc0 : mulF64 9 0 = 0 := by
    unfold mulF64
    exact (by simp [roundF64_zero])
  have hf1 : float64Of 1 = 1 := by simpa using float64Of_eq 1 (by norm_num)
  have hr1 : mulF64 (float64Of 1) (3602879701896397 / 18014398509481984) =
      (3602879701896397 / 18014398509481984) := by
    unfold mulF64
    rw [hf1]
    exact (by
        have h := roundF64_eval (1 * (3602879701896397 / 18014398509481984)) (-3)
            (-55) 7205759403792794 (by norm_num) (by norm_num)
          (by norm_num) (roundHalfEven_down _ 7205759403792794 (by norm_num) (by norm_num))
        rw [h]; norm_num)
  have hx1 : mulF64 (float64Of threesAndNines.values.length)
      (3602879701896397 / 18014398509481984) = 1 := by
    rw [hl, hn]
    unfold mulF64
    exact (by
        have h := roundF64_eval (5 * (3602879701896397 / 18014398509481984)) (0)
            (-52) 4503599627370496 (by norm_num) (by norm_num)
          (by norm_num) (roundHalfEven_down _ 4503599627370496 (by norm_num) (by norm_num))
        rw [h]; norm_num)
  have hk1 : ⌊(1 : ℚ)⌋₊ = 1 := by
    rw [Nat.floor_eq_iff (by norm_num)]
    norm_num
  have hT1 : threesAndNines.ThresholdF64 true (3602879701896397 / 18014398509481984) = some 9 := by
    rw [ThresholdF64_of_unit threesAndNines true (3602879701896397 / 18014398509481984) hne hlen
        (by norm_num) (by norm_num), hx1, hk1]
    simp [hs, hl]
  have hc1 : mulF64 9 (3602879701896397 / 18014398509481984) =
      (8106479329266893 / 4503599627370496) := by
    unfold mulF64
    exact (by
        have h := roundF64_eval (9 * (3602879701896397 / 18014398509481984)) (0)
            (-52) 8106479329266893 (by norm_num) (by norm_num)
          (by norm_num) (roundHalfEven_down _ 8106479329266893 (by norm_num) (by norm_num))
        rw [h]; norm_num)
  have hf2 : float64Of 2 = 2 := by simpa using float64Of_eq 2 (by norm_num)
  have hr2 : mulF64 (float64Of 2) (3602879701896397 / 18014398509481984) =
      (3602879701896397 / 9007199254740992) := by
    unfold mulF64
    rw [hf2]
    exact (by
        have h := roundF64_eval (2 * (3602879701896397 / 18014398509481984)) (-2)
            (-54) 7205759403792794 (by norm_num) (by norm_num)
          (by norm_num) (roundHalfEven_down _ 7205759403792794 (by norm_num) (by norm_num))
        rw [h]; norm_num)
  have hx2 : mulF64 (float64Of threesAndNines.values.length) (3602879701896397 / 9007199254740992) =
      2 := by
    rw [hl, hn]
    unfold mulF64
    exact (by
        have h := roundF64_eval (5 * (3602879701896397 / 9007199254740992)) (1)
            (-51) 4503599627370496 (by norm_num) (by norm_num)
          (by norm_num) (roundHalfEven_down _ 4503599627370496 (by norm_num) (by norm_num))
        rw [h]; norm_num)
  have hk2 : ⌊(2 : ℚ)⌋₊ = 2 := by
    rw [Nat.floor_eq_iff (by norm_num)]
    norm_num
  have hT2 : threesAndNines.ThresholdF64 true (3602879701896397 / 9007199254740992) = some 3 := by
    rw [ThresholdF64_of_unit threesAndNines true (3602879701896397 / 9007199254740992) hne hlen
        (by norm_num) (by norm_num), hx2, hk2]
    simp [hs, hl]
  have hc2 : mulF64 3 (3602879701896397 / 9007199254740992) =
      (1351079888211149 / 1125899906842624) := by
    unfold mulF64
    exact (by
        have h := roundF64_eval (3 * (3602879701896397 / 9007199254740992)) (0)
            (-52) 5404319552844596 (by norm_num) (by norm_num)
          (by norm_num) (roundHalfEven_tie_odd _ 5404319552844595 (by norm_num) (by norm_num))
        rw [h]; norm_num)
  have hf3 : float64Of 3 = 3 := by simpa using float64Of_eq 3 (by norm_num)
  have hr3 : mulF64 (float64Of 3) (3602879701896397 / 18014398509481984) =
      (1351079888211149 / 2251799813685248) := by
    unfold mulF64
    rw [hf3]
    exact (by
        have h := roundF64_eval (3 * (3602879701896397 / 18014398509481984)) (-1)
            (-53) 5404319552844596 (by norm_num) (by norm_num)
          (by norm_num) (roundHalfEven_tie_odd _ 5404319552844595 (by norm_num) (by norm_num))
        rw [h]; norm_num)
  have hx3 : mulF64 (float64Of threesAndNines.values.length) (1351079888211149 / 2251799813685248) =
      (6755399441055745 / 2251799813685248) := by
    rw [hl, hn]
    unfold mulF64
    exact (by
        have h := roundF64_eval (5 * (1351079888211149 / 2251799813685248)) (1)
            (-51) 6755399441055745 (by norm_num) (by norm_num)
          (by norm_num) (roundHalfEven_down _ 6755399441055745 (by norm_num) (by norm_num))
        rw [h]; norm_num)
  have hk3 : ⌊((6755399441055745 / 2251799813685248) : ℚ)⌋₊ = 3 := by
    rw [Nat.floor_eq_iff (by norm_num)]
    norm_num
  have hT3 : threesAndNines.ThresholdF64 true (1351079888211149 / 2251799813685248) = some 3 := by
    rw [ThresholdF64_of_unit threesAndNines true (1351079888211149 / 2251799813685248) hne hlen
        (by norm_num) (by norm_num), hx3, hk3]
    simp [hs, hl]
  have hc3 : mulF64 3 (1351079888211149 / 2251799813685248) =
      (4053239664633447 / 2251799813685248) := by
    unfold mulF64
    exact (by
        have h := roundF64_eval (3 * (1351079888211149 / 2251799813685248)) (0)
            (-52) 8106479329266894 (by norm_num) (by norm_num)
          (by norm_num) (roundHalfEven_down _ 8106479329266894 (by norm_num) (by norm_num))
        rw [h]; norm_num)
  have hf4 : float64Of 4 = 4 := by simpa using float64Of_eq 4 (by norm_num)
  have hr4 : mulF64 (float64Of 4) (3602879701896397 / 18014398509481984) =
      (3602879701896397 / 4503599627370496) := by
    unfold mulF64
    rw [hf4]
    exact (by
        have h := roundF64_eval (4 * (3602879701896397 / 18014398509481984)) (-1)
            (-53) 7205759403792794 (by norm_num) (by norm_num)
          (by norm_num) (roundHalfEven_down _ 7205759403792794 (by norm_num) (by norm_num))
        rw [h]; norm_num)
  have hx4 : mulF64 (float64Of threesAndNines.values.length) (3602879701896397 / 4503599627370496) =
      4 := by
    rw [hl, hn]
    unfold mulF64
    exact (by
        have h := roundF64_eval (5 * (3602879701896397 / 4503599627370496)) (2)
            (-50) 4503599627370496 (by norm_num) (by norm_num)
          (by norm_num) (roundHalfEven_down _ 4503599627370496 (by norm_num) (by norm_num))
        rw [h]; norm_num)
  have hk4 : ⌊(4 : ℚ)⌋₊ = 4 := by
    rw [Nat.floor_eq_iff (by norm_num)]
    norm_num
  have hT4 : threesAndNines.ThresholdF64 true (3602879701896397 / 4503599627370496) = some 0 := by
    rw [ThresholdF64_of_unit threesAndNines true (3602879701896397 / 4503599627370496) hne hlen
        (by norm_num) (by norm_num), hx4, hk4]
    simp [hs, hl]
  have hc4 : mulF64 0 (3602879701896397 / 4503599627370496) = 0 := by
    unfold mulF64
    exact (by simp [roundF64_zero])
  have hrange : List.range threesAndNines.values.length = [0, 1, 2, 3, 4] := rfl
  have hfill : predictFillF64 threesAndNines 0
      (3602879701896397 / 18014398509481984) [0, 1, 2, 3, 4] =
      some [0, (8106479329266893 / 4503599627370496), (1351079888211149 / 1125899906842624),
      (4053239664633447 / 2251799813685248), 0] := by
    simp only [predictFillF64, hr0, hT0, hc0, hr1, hT1, hc1, hr2, hT2, hc2, hr3, hT3, hc3, hr4, hT4,
        hc4]
    norm_num
  have hmax : predictMax [0, (8106479329266893 / 4503599627370496),
      (1351079888211149 / 1125899906842624), (4053239664633447 / 2251799813685248), 0] 0 (0, 0) =
      ((4053239664633447 / 2251799813685248), 3) := by
    norm_num [predictMax]
  refine ⟨?_, by norm_num⟩
  simp only [Values.PredictF64, hbase, hrange, hfill, hmax, hr3]

/-- Evaluation of `Predict(0)` on `[1, 2, 3, 4, 5, 6, 7]`: the product
`7 * (5 * (1 / 7))` rounds to `4.999999999999999`, so the index `5` reads
`fx[5] = 2`, and the result is the index `5`: rate `0.7142857142857142`,
profit `1.4285714285714284`. -/
theorem PredictF64_seven_trace :
    oneToSeven.PredictF64 0 =
        some (some (3216856876693211 / 4503599627370496),
        (3216856876693211 / 2251799813685248)) := by
  have hne : oneToSeven.values ≠ [] := by decide
  have hl : oneToSeven.values.length = 7 := rfl
  have hlen : oneToSeven.values.length ≤ 2 ^ 53 := by rw [hl]; norm_num
  have hn : float64Of 7 = 7 := by simpa using float64Of_eq 7 (by norm_num)
  have hb : roundF64 (1 / 7) = (2573485501354569 / 18014398509481984) :=
      (by
        have h := roundF64_eval (1 / 7) (-3) (-55) 5146971002709138 (by norm_num) (by norm_num)
          (by norm_num) (roundHalfEven_down _ 5146971002709138 (by norm_num) (by norm_num))
        rw [h]; norm_num)
  have hbase : divF64 1 (float64Of oneToSeven.values.length) =
      some (2573485501354569 / 18014398509481984) := by
    rw [divF64_length _ (by decide) hlen, hl]
    simp only [Nat.cast_ofNat]
    rw [hb]
  have hs : sortDescending oneToSeven.values = [7, 6, 5, 4, 3, 2, 1] := by
    show sortDescending ([1, 2, 3, 4, 5, 6, 7] : List ℚ) = [7, 6, 5, 4, 3, 2, 1]
    norm_num [sortDescending]
  have hf0 : float64Of 0 = 0 := by simpa using float64Of_eq 0 (by norm_num)
  have hr0 : mulF64 (float64Of 0) (2573485501354569 / 18014398509481984) = 0 := by
    unfold mulF64
    rw [hf0]
    exact (by simp [roundF64_zero])
  have hx0 : mulF64 (float64Of oneToSeven.values.length) 0 = 0 := by
    rw [hl, hn]
    unfold mulF64
    exact (by simp [roundF64_zero])
  have hk0 : ⌊(0 : ℚ)⌋₊ = 0 := by
    rw [Nat.floor_eq_iff (by norm_num)]
    norm_num
  have hT0 : oneToSeven.ThresholdF64 true 0 = some 6 := by
    rw [ThresholdF64_of_unit oneToSeven true 0 hne hlen (by norm_num) (by norm_num), hx0, hk0]
    simp [hs, hl]
  have hc0 : mulF64 6 0 = 0 := by
    unfold mulF64
    exact (by simp [roundF64_zero])
  have hf1 : float64Of 1 = 1 := by simpa using float64Of_eq 1 (by norm_num)
  have hr1 : mulF64 (float64Of 1) (2573485501354569 / 18014398509481984) =
      (2573485501354569 / 18014398509481984) := by
    unfold mulF64
    rw [hf1]
    exact (by
        have h := roundF64_eval (1 * (2573485501354569 / 18014398509481984)) (-3)
            (-55) 5146971002709138 (by norm_num) (by norm_num)
          (by norm_num) (roundHalfEven_down _ 5146971002709138 (by norm_num) (by norm_num))
        rw [h]; norm_num)
  have hx1 : mulF64 (float64Of oneToSeven.values.length) (2573485501354569 / 18014398509481984) =
      1 := by
    rw [hl, hn]
    unfold mulF64
    exact (by
        have h := roundF64_eval (7 * (2573485501354569 / 18014398509481984)) (-1)
            (-53) 9007199254740992 (by norm_num) (by norm_num)
          (by norm_num) (roundHalfEven_tie_odd _ 9007199254740991 (by norm_num) (by norm_num))
        rw [h]; norm_num)
  have hk1 : ⌊(1 : ℚ)⌋₊ = 1 := by
    rw [Nat.floor_eq_iff (by norm_num)]
    norm_num
  have hT1 : oneToSeven.ThresholdF64 true (2573485501354569 / 18014398509481984) = some 5 := by
    rw [ThresholdF64_of_unit oneToSeven true (2573485501354569 / 18014398509481984) hne hlen
        (by norm_num) (by norm_num), hx1, hk1]
    simp [hs, hl]
  have hc1 : mulF64 5 (2573485501354569 / 18014398509481984) =
      (3216856876693211 / 4503599627370496) := by
    unfold mulF64
    exact (by
        have h := roundF64_eval (5 * (2573485501354569 / 18014398509481984)) (-1)
            (-53) 6433713753386422 (by norm_num) (by norm_num)
          (by norm_num) (roundHalfEven_tie_even _ 6433713753386422 (by norm_num) (by norm_num))
        rw [h]; norm_num)
  have hf2 : float64Of 2 = 2 := by simpa using float64Of_eq 2 (by norm_num)
  have hr2 : mulF64 (float64Of 2) (2573485501354569 / 18014398509481984) =
      (2573485501354569 / 9007199254740992) := by
    unfold mulF64
    rw [hf2]
    exact (by
        have h := roundF64_eval (2 * (2573485501354569 / 18014398509481984)) (-2)
            (-54) 5146971002709138 (by norm_num) (by norm_num)
          (by norm_num) (roundHalfEven_down _ 5146971002709138 (by norm_num) (by norm_num))
        rw [h]; norm_num)
  have hx2 : mulF64 (float64Of oneToSeven.values.length) (2573485501354569 / 9007199254740992) =
      2 := by
    rw [hl, hn]
    unfold mulF64
    exact (by
        have h := roundF64_eval (7 * (2573485501354569 / 9007199254740992)) (0)
            (-52) 9007199254740992 (by norm_num) (by norm_num)
          (by norm_num) (roundHalfEven_tie_odd _ 9007199254740991 (by norm_num) (by norm_num))
        rw [h]; norm_num)
  have hk2 : ⌊(2 : ℚ)⌋₊ = 2 := by
    rw [Nat.floor_eq_iff (by norm_num)]
    norm_num
  have hT2 : oneToSeven.ThresholdF64 true (2573485501354569 / 9007199254740992) = some 4 := by
    rw [ThresholdF64_of_unit oneToSeven true (2573485501354569 / 9007199254740992) hne hlen
        (by norm_num) (by norm_num), hx2, hk2]
    simp [hs, hl]
  have hc2 : mulF64 4 (2573485501354569 / 9007199254740992) =
      (2573485501354569 / 2251799813685248) := by
    unfold mulF64
    exact (by
        have h := roundF64_eval (4 * (2573485501354569 / 9007199254740992)) (0)
            (-52) 5146971002709138 (by norm_num) (by norm_num)
          (by norm_num) (roundHalfEven_down _ 5146971002709138 (by norm_num) (by norm_num))
        rw [h]; norm_num)
  have hf3 : float64Of 3 = 3 := by simpa using float64Of_eq 3 (by norm_num)
  have hr3 : mulF64 (float64Of 3) (2573485501354569 / 18014398509481984) =
      (7720456504063707 / 18014398509481984) := by
    unfold mulF64
    rw [hf3]
    exact (by
        have h := roundF64_eval (3 * (2573485501354569 / 18014398509481984)) (-2)
            (-54) 7720456504063707 (by norm_num) (by norm_num)
          (by norm_num) (roundHalfEven_down _ 7720456504063707 (by norm_num) (by norm_num))
        rw [h]; norm_num)
  have hx3 : mulF64 (float64Of oneToSeven.values.length) (7720456504063707 / 18014398509481984) =
      3 := by
    rw [hl, hn]
    unfold mulF64
    exact (by
        have h := roundF64_eval (7 * (7720456504063707 / 18014398509481984)) (1)
            (-51) 6755399441055744 (by norm_num) (by norm_num)
          (by norm_num) (roundHalfEven_up _ 6755399441055743 (by norm_num) (by norm_num))
        rw [h]; norm_num)
  have hk3 : ⌊(3 : ℚ)⌋₊ = 3 := by
    rw [Nat.floor_eq_iff (by norm_num)]
    norm_num
  have hT3 : oneToSeven.ThresholdF64 true (7720456504063707 / 18014398509481984) = some 3 := by
    rw [ThresholdF64_of_unit oneToSeven true (7720456504063707 / 18014398509481984) hne hlen
        (by norm_num) (by norm_num), hx3, hk3]
    simp [hs, hl]
  have hc3 : mulF64 3 (7720456504063707 / 18014398509481984) =
      (1447585594511945 / 1125899906842624) := by
    unfold mulF64
    exact (by
        have h := roundF64_eval (3 * (7720456504063707 / 18014398509481984)) (0)
            (-52) 5790342378047780 (by norm_num) (by norm_num)
          (by norm_num) (roundHalfEven_down _ 5790342378047780 (by norm_num) (by norm_num))
        rw [h]; norm_num)
  have hf4 : float64Of 4 = 4 := by simpa using float64Of_eq 4 (by norm_num)
  have hr4 : mulF64 (float64Of 4) (2573485501354569 / 18014398509481984) =
      (2573485501354569 / 4503599627370496) := by
    unfold mulF64
    rw [hf4]
    exact (by
        have h := roundF64_eval (4 * (2573485501354569 / 18014398509481984)) (-1)
            (-53) 5146971002709138 (by norm_num) (by norm_num)
          (by norm_num) (roundHalfEven_down _ 5146971002709138 (by norm_num) (by norm_num))
        rw [h]; norm_num)
  have hx4 : mulF64 (float64Of oneToSeven.values.length) (2573485501354569 / 4503599627370496) =
      4 := by
    rw [hl, hn]
    unfold mulF64
    exact (by
        have h := roundF64_eval (7 * (2573485501354569 / 4503599627370496)) (1)
            (-51) 9007199254740992 (by norm_num) (by norm_num)
          (by norm_num) (roundHalfEven_tie_odd _ 9007199254740991 (by norm_num) (by norm_num))
        rw [h]; norm_num)
  have hk4 : ⌊(4 : ℚ)⌋₊ = 4 := by
    rw [Nat.floor_eq_iff (by norm_num)]
    norm_num
  have hT4 : oneToSeven.ThresholdF64 true (2573485501354569 / 4503599627370496) = some 2 := by
    rw [ThresholdF64_of_unit oneToSeven true (2573485501354569 / 4503599627370496) hne hlen
        (by norm_num) (by norm_num), hx4, hk4]
    simp [hs, hl]
  have hc4 : mulF64 2 (2573485501354569 / 4503599627370496) =
      (2573485501354569 / 2251799813685248) := by
    unfold mulF64
    exact (by
        have h := roundF64_eval (2 * (2573485501354569 / 4503599627370496)) (0)
            (-52) 5146971002709138 (by norm_num) (by norm_num)
          (by norm_num) (roundHalfEven_down _ 5146971002709138 (by norm_num) (by norm_num))
        rw [h]; norm_num)
  have hf5 : float64Of 5 = 5 := by simpa using float64Of_eq 5 (by norm_num)
  have hr5 : mulF64 (float64Of 5) (2573485501354569 / 18014398509481984) =
      (3216856876693211 / 4503599627370496) := by
    unfold mulF64
    rw [hf5]
    exact (by
        have h := roundF64_eval (5 * (2573485501354569 / 18014398509481984)) (-1)
            (-53) 6433713753386422 (by norm_num) (by norm_num)
          (by norm_num) (roundHalfEven_tie_even _ 6433713753386422 (by norm_num) (by norm_num))
        rw [h]; norm_num)
  have hx5 : mulF64 (float64Of oneToSeven.values.length) (3216856876693211 / 4503599627370496) =
      (5629499534213119 / 1125899906842624) := by
    rw [hl, hn]
    unfold mulF64
    exact (by
        have h := roundF64_eval (7 * (3216856876693211 / 4503599627370496)) (2)
            (-50) 5629499534213119 (by norm_num) (by norm_num)
          (by norm_num) (roundHalfEven_down _ 5629499534213119 (by norm_num) (by norm_num))
        rw [h]; norm_num)
  have hk5 : ⌊((5629499534213119 / 1125899906842624) : ℚ)⌋₊ = 4 := by
    rw [Nat.floor_eq_iff (by norm_num)]
    norm_num
  have hT5 : oneToSeven.ThresholdF64 true (3216856876693211 / 4503599627370496) = some 2 := by
    rw [ThresholdF64_of_unit oneToSeven true (3216856876693211 / 4503599627370496) hne hlen
        (by norm_num) (by norm_num), hx5, hk5]
    simp [hs, hl]
  have hc5 : mulF64 2 (3216856876693211 / 4503599627370496) =
      (3216856876693211 / 2251799813685248) := by
    unfold mulF64
    exact (by
        have h := roundF64_eval (2 * (3216856876693211 / 4503599627370496)) (0)
            (-52) 6433713753386422 (by norm_num) (by norm_num)
          (by norm_num) (roundHalfEven_down _ 6433713753386422 (by norm_num) (by norm_num))
        rw [h]; norm_num)
  have hf6 : float64Of 6 = 6 := by simpa using float64Of_eq 6 (by norm_num)
  have hr6 : mulF64 (float64Of 6) (2573485501354569 / 18014398509481984) =
      (7720456504063707 / 9007199254740992) := by
    unfold mulF64
    rw [hf6]
    exact (by
        have h := roundF64_eval (6 * (2573485501354569 / 18014398509481984)) (-1)
            (-53) 7720456504063707 (by norm_num) (by norm_num)
          (by norm_num) (roundHalfEven_down _ 7720456504063707 (by norm_num) (by norm_num))
        rw [h]; norm_num)
  have hx6 : mulF64 (float64Of oneToSeven.values.length) (7720456504063707 / 9007199254740992) =
      6 := by
    rw [hl, hn]
    unfold mulF64
    exact (by
        have h := roundF64_eval (7 * (7720456504063707 / 9007199254740992)) (2)
            (-50) 6755399441055744 (by norm_num) (by norm_num)
          (by norm_num) (roundHalfEven_up _ 6755399441055743 (by norm_num) (by norm_num))
        rw [h]; norm_num)
  have hk6 : ⌊(6 : ℚ)⌋₊ = 6 := by
    rw [Nat.floor_eq_iff (by norm_num)]
    norm_num
  have hT6 : oneToSeven.ThresholdF64 true (7720456504063707 / 9007199254740992) = some 0 := by
    rw [ThresholdF64_of_unit oneToSeven true (7720456504063707 / 9007199254740992) hne hlen
        (by norm_num) (by norm_num), hx6, hk6]
    simp [hs, hl]
  have hc6 : mulF64 0 (7720456504063707 / 9007199254740992) = 0 := by
    unfold mulF64
    exact (by simp [roundF64_zero])
  have hrange : List.range oneToSeven.values.length = [0, 1, 2, 3, 4, 5, 6] := rfl
  have hfill : predictFillF64 oneToSeven 0
      (2573485501354569 / 18014398509481984) [0, 1, 2, 3, 4, 5, 6] =
      some [0, (3216856876693211 / 4503599627370496), (2573485501354569 / 2251799813685248),
      (1447585594511945 / 1125899906842624), (2573485501354569 / 2251799813685248),
      (3216856876693211 / 2251799813685248), 0] := by
    simp only [predictFillF64, hr0, hT0, hc0, hr1, hT1, hc1, hr2, hT2, hc2, hr3, hT3, hc3, hr4, hT4,
        hc4, hr5, hT5, hc5, hr6, hT6, hc6]
    norm_num
  have hmax : predictMax [0, (3216856876693211 / 4503599627370496),
      (2573485501354569 / 2251799813685248), (1447585594511945 / 1125899906842624),
      (2573485501354569 / 2251799813685248), (3216856876693211 / 2251799813685248), 0] 0 (0, 0) =
      ((3216856876693211 / 2251799813685248), 5) := by
    norm_num [predictMax]
  simp only [Values.PredictF64, hbase, hrange, hfill, hmax, hr5]


theorem PredictF64_eq_reference_witness :
    threesAndNines.values ≠ [] ∧ threesAndNines.values.length ≤ 2 ^ 53 ∧
    (∃ (base : ℚ) (spread : Nat → ℚ),
      divF64 1 (float64Of threesAndNines.values.length) = some base ∧
      (∀ i, i < threesAndNines.values.length →
        threesAndNines.ThresholdF64 true (mulF64 (float64Of i) base) = some (spread i)) ∧
      ∃ istar, istar < threesAndNines.values.length ∧
        threesAndNines.PredictF64 0 =
          some (some (mulF64 (float64Of istar) base),
            contributionF64 0 (spread istar) (mulF64 (float64Of istar) base)) ∧
        (∀ i, i < threesAndNines.values.length →
          contributionF64 0 (spread i) (mulF64 (float64Of i) base) ≤
            contributionF64 0 (spread istar) (mulF64 (float64Of istar) base)) ∧
        (∀ i, i < istar →
          contributionF64 0 (spread i) (mulF64 (float64Of i) base) <
            contributionF64 0 (spread istar) (mulF64 (float64Of istar) base))) ∧
    threesAndNines.PredictF64 0 =
      some (some (1351079888211149 / 2251799813685248),
        4053239664633447 / 2251799813685248) :=
  ⟨by decide, by norm_num [threesAndNines],
    PredictF64_eq_reference threesAndNines 0 (by decide) (by norm_num [threesAndNines]),
    PredictF64_tie_trace.1⟩

/-- Evaluation of `Threshold(false, ·)` on `[1, 2, 3]` at `0` and at the
`float64` nearest to `2/3`: the exact product `3 * q` is below `2`, the
`float64` product is `2.0`, so the index is `floor(2.0) + 1 = 3 = n` and the
call at `q` is answered by the sentinel `0`, below the value `2` at `0`. -/
theorem ThresholdF64_two_thirds_trace :
    roundF64 (2 / 3) = (6004799503160661 / 9007199254740992) ∧
    (3 : ℚ) * (6004799503160661 / 9007199254740992) < 2 ∧
    mulF64 (float64Of 3) (6004799503160661 / 9007199254740992) = 2 ∧
    (Values.mk 0 [1, 2, 3]).ThresholdF64 false (6004799503160661 / 9007199254740992) = some 0 ∧
    (Values.mk 0 [1, 2, 3]).ThresholdF64 false 0 = some 2 := by
  have h3 : float64Of 3 = 3 := by simpa using float64Of_eq 3 (by norm_num)
  have hl : (Values.mk 0 [1, 2, 3]).values.length = 3 := rfl
  have hq : roundF64 (2 / 3) = (6004799503160661 / 9007199254740992) :=
      (by
        have h := roundF64_eval (2 / 3) (-1) (-53) 6004799503160661 (by norm_num) (by norm_num)
          (by norm_num) (roundHalfEven_down _ 6004799503160661 (by norm_num) (by norm_num))
        rw [h]; norm_num)
  have hx : mulF64 (float64Of 3) (6004799503160661 / 9007199254740992) = 2 := by
    rw [h3]
    unfold mulF64
    exact (by
        have h := roundF64_eval (3 * (6004799503160661 / 9007199254740992)) (0)
            (-52) 9007199254740992 (by norm_num) (by norm_num)
          (by norm_num) (roundHalfEven_tie_odd _ 9007199254740991 (by norm_num) (by norm_num))
        rw [h]; norm_num)
  have hx0 : mulF64 (float64Of 3) 0 = 0 := by
    unfold mulF64
    simp [roundF64_zero]
  refine ⟨hq, by norm_num, hx, ?_, ?_⟩
  · rw [ThresholdF64_of_unit _ _ _ (by decide) (by norm_num) (by norm_num) (by norm_num),
      hl, hx]
    norm_num
  · rw [ThresholdF64_of_unit _ _ _ (by decide) (by norm_num) (by norm_num) (by norm_num),
      hl, hx0]
    norm_num [sortAscending]


/-! ## Stored NaN values -/

/-- On storage without NaN, `ThresholdNaN` is `ThresholdF64`. -/
theorem ThresholdNaN_map_some (p : Values) (isReverse : Bool) (prob : ℚ) :
    ThresholdNaN (p.values.map some) isReverse prob =
      (p.ThresholdF64 isReverse prob).map some := by
  have hasc : sortAscendingNaN (p.values.map some) = (sortAscending p.values).map some :=
    (List.map_insertionSort (r := fun a b : ℚ => a ≤ b)
      (s := fun a b : Option ℚ => lessNaN b a = false) some p.values
      (by intro a _ b _; simp [lessNaN])).symm
  have hdesc : sortDescendingNaN (p.values.map some) = (sortDescending p.values).map some :=
    (List.map_insertionSort (r := fun a b : ℚ => a ≥ b)
      (s := fun a b : Option ℚ => lessNaN a b = false) some p.values
      (by intro a _ b _; simp [lessNaN])).symm
  have hfx : (if isReverse then sortDescendingNaN (p.values.map some)
      else sortAscendingNaN (p.values.map some)) =
      (if isReverse then sortDescending p.values else sortAscending p.values).map some := by
    cases isReverse <;> simp [hasc, hdesc]
  simp only [ThresholdNaN, Values.ThresholdF64, hfx, List.length_map]
  by_cases h1 : p.values.length < 1
  · simp only [if_pos h1, Option.map_some']
  · simp only [if_neg h1]
    generalize intOfFloor (mulF64 (float64Of (if isReverse then sortDescending p.values
        else sortAscending p.values).length) prob) = o
    cases o with
    | none => rfl
    | some point =>
      simp only [indexAt]
      split_ifs <;> simp [List.getElem?_map]

/-- C14 (as stated, refuted): after `Set(NaN)`, `Set(1)`, `Set(2)` the sorted
copy is `[NaN, 1, 2]` and `Threshold(false, 0)` returns `fx[1] = 1` with
`k = floor(3 * 0) = 0`; only one stored observation is `≤ 1` (the comparison
with NaN is false), fewer than `k + 2 = 2`. -/
theorem ThresholdNaN_rank_counterexample :
    sortAscendingNaN [none, some 1, some 2] = [none, some 1, some 2] ∧
    ⌊mulF64 (float64Of ([none, some 1, some 2] : List (Option ℚ)).length) 0⌋₊ = 0 ∧
    ThresholdNaN [none, some 1, some 2] false 0 = some (some 1) ∧
    ([none, some 1, some 2] : List (Option ℚ)).countP (fun x => leNaN x (some 1)) = 1 ∧
    ¬ (0 + 2 ≤ 1) := by
  have hx : mulF64 (float64Of ([none, some 1, some 2] : List (Option ℚ)).length) 0 = 0 := by
    unfold mulF64
    rw [mul_zero, roundF64_zero]
  have hs : sortAscendingNaN [none, some 1, some 2] = [none, some 1, some 2] := by
    simp [sortAscendingNaN, lessNaN]
  refine ⟨hs, by rw [hx]; simp, ?_, by simp [leNaN], by decide⟩
  have hx3 : mulF64 (float64Of 3) 0 = 0 := by
    unfold mulF64
    rw [mul_zero, roundF64_zero]
  simp [ThresholdNaN, sortAscendingNaN, lessNaN, intOfFloor, hx3]


/-- Evaluation of `Threshold` on `[1, 2, 3, 4]` at the probability `2 ^ 61`:
the product is `2 ^ 63`, outside `int64`, and the call has no result. -/
theorem ThresholdF64_huge_prob_trace :
    mulF64 (float64Of 4) ((2 : ℚ) ^ (61 : ℤ)) = (2 : ℚ) ^ (63 : ℤ) ∧
    intOfFloor ((2 : ℚ) ^ (63 : ℤ)) = none ∧
    (Values.mk 0 [1, 2, 3, 4]).ThresholdF64 false ((2 : ℚ) ^ (61 : ℤ)) = none := by
  have h4 : float64Of 4 = 4 := by simpa using float64Of_eq 4 (by norm_num)
  have hx : mulF64 (float64Of 4) ((2 : ℚ) ^ (61 : ℤ)) = (2 : ℚ) ^ (63 : ℤ) := by
    rw [h4]
    unfold mulF64
    have h := roundF64_dyadic 1 63 (by decide) (by norm_num)
    have e : (4 : ℚ) * 2 ^ (61 : ℤ) = ((1 : ℤ) : ℚ) * 2 ^ (63 : ℤ) := by norm_num
    rw [e, h]
    norm_num
  have hi : intOfFloor ((2 : ℚ) ^ (63 : ℤ)) = none := by
    have hf : ⌊(2 : ℚ) ^ (63 : ℤ)⌋ = (2 : ℤ) ^ 63 := by
      rw [Int.floor_eq_iff]
      norm_num
    unfold intOfFloor
    rw [hf, if_neg (by norm_num)]
  refine ⟨hx, hi, ?_⟩
  have hl : (sortAscending (Values.mk 0 [1, 2, 3, 4]).values).length = 4 := by
    rw [sortAscending, List.length_insertionSort]
    rfl
  simp only [Values.ThresholdF64, Bool.false_eq_true, if_false, hl, hx, hi]
  rfl


theorem mulF64_four_quarter : mulF64 (float64Of 4) (1 / 4) = 1 ∧ mulF64 (float64Of 4) 0 = 0 := by
  have h4 : float64Of 4 = 4 := by simpa using float64Of_eq 4 (by norm_num)
  rw [h4]
  unfold mulF64
  constructor
  · rw [show (4 : ℚ) * (1 / 4) = 1 by norm_num, roundF64_one]
  · rw [mul_zero, roundF64_zero]

/-- Evaluation of `Threshold(false, ·)` on the storage `[NaN, NaN, 1, 2]` at
`0` and at `0.25`. -/
theorem ThresholdNaN_two_nans :
    sortAscendingNaN [none, none, some 1, some 2] = [none, none, some 1, some 2] ∧
    ⌊mulF64 (float64Of 4) (1 / 4)⌋₊ + 1 < 4 ∧
    ThresholdNaN [none, none, some 1, some 2] false 0 = some none ∧
    ThresholdNaN [none, none, some 1, some 2] false (1 / 4) = some (some 1) := by
  have hs : sortAscendingNaN [none, none, some 1, some 2] = [none, none, some 1, some 2] := by
    simp [sortAscendingNaN, lessNaN]
  refine ⟨hs, by rw [mulF64_four_quarter.1]; norm_num, ?_, ?_⟩
  · simp [ThresholdNaN, sortAscendingNaN, lessNaN, intOfFloor, mulF64_four_quarter.2]
  · have h' : mulF64 (float64Of 4) 4⁻¹ = 1 := by
      have h := mulF64_four_quarter.1
      rw [one_div] at h
      exact h
    simp [ThresholdNaN, sortAscendingNaN, lessNaN, intOfFloor, h']

/-- C19 (as stated, refuted): after `Set(NaN)`, `Set(NaN)`, `Set(1)`, `Set(2)`
the ascending sorted copy is `[NaN, NaN, 1, 2]`; `Threshold(false, 0)` returns
`fx[1] = NaN` and `Threshold(false, 0.25)` returns `fx[2] = 1`, neither call
being answered by the sentinel (`floor(4 * 0.25) + 1 = 2 < 4`), and
`NaN <= 1` is false. -/
theorem ThresholdNaN_monotone_counterexample :
    sortAscendingNaN [none, none, some 1, some 2] = [none, none, some 1, some 2] ∧
    ⌊mulF64 (float64Of 4) (1 / 4)⌋₊ + 1 < 4 ∧
    ThresholdNaN [none, none, some 1, some 2] false 0 = some none ∧
    ThresholdNaN [none, none, some 1, some 2] false (1 / 4) = some (some 1) ∧
    leNaN none (some 1) = false :=
  ⟨ThresholdNaN_two_nans.1, ThresholdNaN_two_nans.2.1, ThresholdNaN_two_nans.2.2.1,
    ThresholdNaN_two_nans.2.2.2, rfl⟩

theorem predictFillNaN_map_some (p : Values) (threshold base : ℚ) (is : List Nat) :
    predictFillNaN (p.values.map some) threshold base is =
      (predictFillF64 p threshold base is).map (List.map some) := by
  induction is with
  | nil => rfl
  | cons i rest ih =>
    simp only [predictFillNaN, predictFillF64, ThresholdNaN_map_some, ih]
    cases p.ThresholdF64 true (mulF64 (float64Of i) base) with
    | none => rfl
    | some spread =>
      cases predictFillF64 p threshold base rest with
      | none => rfl
      | some tail =>
        by_cases h : spread < threshold <;> simp [ltNaN, mulNaN, h]

theorem predictMaxNaN_map_some (fx : List ℚ) (i : Nat) (a : ℚ) (j : Nat) :
    predictMaxNaN (fx.map some) i (some a, j) =
      (some (predictMax fx i (a, j)).1, (predictMax fx i (a, j)).2) := by
  induction fx generalizing i a j with
  | nil => rfl
  | cons x rest ih =>
    by_cases h : a < x <;> simp [predictMaxNaN, predictMax, ltNaN, h, ih]

/-- On storage without NaN, `PredictNaN` is `PredictF64`. -/
theorem PredictNaN_map_some (p : Values) (threshold : ℚ) :
    PredictNaN (p.values.map some) threshold =
      (p.PredictF64 threshold).map (fun r => (r.1, some r.2)) := by
  simp only [PredictNaN, Values.PredictF64, List.length_map, predictFillNaN_map_some]
  generalize divF64 1 (float64Of p.values.length) = ob
  cases ob with
  | none => rfl
  | some base =>
    simp only []
    generalize predictFillF64 p threshold base (List.range p.values.length) = ofx
    cases ofx with
    | none => rfl
    | some fx => simp [predictMaxNaN_map_some]

/-- C3 (as stated, refuted): after `Set(NaN)`, `Set(1)`, `Predict(0)` computes
the contributions `[NaN, 0]` (`Threshold(true, 0)` reads `fx[1] = NaN` of the
descending copy `[1, NaN]`, and `NaN * 0` is NaN) and returns rate `0`,
profit `0`: at the index `0` of that rate the contribution is NaN, not the
returned profit, and the index `1` whose contribution is `0` has the rate
`0.5`. -/
theorem PredictNaN_counterexample :
    sortDescendingNaN [none, some 1] = [some 1, none] ∧
    predictFillNaN [none, some 1] 0 (1 / 2) [0, 1] = some [none, some 0] ∧
    PredictNaN [none, some 1] 0 = some (some 0, some 0) ∧
    mulF64 (float64Of 0) (1 / 2) = 0 ∧ mulF64 (float64Of 1) (1 / 2) = 1 / 2 ∧
    ¬ ∃ i, i < 2 ∧ mulF64 (float64Of i) (1 / 2) = 0 ∧
        ([none, some 0] : List (Option ℚ))[i]? = some (some 0) := by
  have h0 : float64Of 0 = 0 := by simpa using float64Of_eq 0 (by norm_num)
  have h1 : float64Of 1 = 1 := by simpa using float64Of_eq 1 (by norm_num)
  have h2 : float64Of 2 = 2 := by simpa using float64Of_eq 2 (by norm_num)
  have hhalf : roundF64 (1 / 2) = 1 / 2 := by
    have h := roundF64_dyadic 1 (-1) (by decide) (by norm_num)
    norm_num at h ⊢
    exact h
  have hr0 : mulF64 (float64Of 0) (1 / 2) = 0 := by
    unfold mulF64; rw [h0, zero_mul, roundF64_zero]
  have hr1 : mulF64 (float64Of 1) (1 / 2) = 1 / 2 := by
    unfold mulF64; rw [h1, one_mul, hhalf]
  have hx0 : mulF64 (float64Of 2) 0 = 0 := by
    unfold mulF64; rw [mul_zero, roundF64_zero]
  have hx1 : mulF64 (float64Of 2) (1 / 2) = 1 := by
    unfold mulF64; rw [h2, show (2 : ℚ) * (1 / 2) = 1 by norm_num, roundF64_one]
  have hc1 : mulF64 0 (1 / 2) = 0 := by
    unfold mulF64; rw [zero_mul, roundF64_zero]
  have hs : sortDescendingNaN [none, some 1] = [some 1, none] := by
    simp [sortDescendingNaN, lessNaN]
  have hT0 : ThresholdNaN [none, some 1] true 0 = some none := by
    simp [ThresholdNaN, sortDescendingNaN, lessNaN, intOfFloor, hx0]
  have hT1 : ThresholdNaN [none, some 1] true (1 / 2) = some (some 0) := by
    simp only [ThresholdNaN, hs, if_true, List.length_cons, List.length_nil, hx1]
    simp [intOfFloor]
  have hfill : predictFillNaN [none, some 1] 0 (1 / 2) [0, 1] = some [none, some 0] := by
    simp only [predictFillNaN, hr0, hr1, hT0, hT1, ltNaN, mulNaN, Option.map, hc1]
    simp
  have hdiv : divF64 1 (float64Of ([none, some 1] : List (Option ℚ)).length) = some (1 / 2) := by
    show divF64 1 (float64Of 2) = some (1 / 2)
    rw [h2]
    simp only [divF64]
    rw [if_neg (by norm_num), hhalf]
  have hrange : List.range ([none, some 1] : List (Option ℚ)).length = [0, 1] := rfl
  have hmax : predictMaxNaN [none, some 0] 0 (some 0, 0) = (some 0, 0) := by
    simp [predictMaxNaN, ltNaN]
  refine ⟨hs, hfill, ?_, hr0, hr1, ?_⟩
  · simp only [PredictNaN, hdiv, hrange, hfill, hmax, hr0]
  · rintro ⟨i, hi, hrate, hc⟩
    have : i = 0 ∨ i = 1 := by omega
    rcases this with rfl | rfl
    · simp at hc
    · rw [hr1] at hrate
      norm_num at hrate


/-! ## `Threshold` and its reference definition, NaN included -/

theorem lessNaN_asc_total : IsTotal (Option ℚ) (fun a b => lessNaN b a = false) := by
  constructor
  intro a b
  cases a <;> cases b <;> simp [lessNaN]
  exact le_total _ _

theorem lessNaN_asc_trans : IsTrans (Option ℚ) (fun a b => lessNaN b a = false) := by
  constructor
  intro a b c
  cases a <;> cases b <;> cases c <;> simp [lessNaN]
  exact fun h1 h2 => le_trans h1 h2

theorem lessNaN_asc_antisymm : IsAntisymm (Option ℚ) (fun a b => lessNaN b a = false) := by
  constructor
  intro a b
  cases a <;> cases b <;> simp [lessNaN]
  exact fun h1 h2 => le_antisymm h1 h2

theorem lessNaN_desc_total : IsTotal (Option ℚ) (fun a b => lessNaN a b = false) := by
  constructor
  intro a b
  cases a <;> cases b <;> simp [lessNaN]
  exact le_total _ _

theorem lessNaN_desc_trans : IsTrans (Option ℚ) (fun a b => lessNaN a b = false) := by
  constructor
  intro a b c
  cases a <;> cases b <;> cases c <;> simp [lessNaN]
  exact fun h1 h2 => le_trans h2 h1

theorem lessNaN_desc_antisymm : IsAntisymm (Option ℚ) (fun a b => lessNaN a b = false) := by
  constructor
  intro a b
  cases a <;> cases b <;> simp [lessNaN]
  exact fun h1 h2 => le_antisymm h2 h1

theorem sortAscendingNaN_unique (l s : List (Option ℚ)) (hp : s.Perm l)
    (hs : s.Sorted (fun a b => lessNaN b a = false)) : sortAscendingNaN l = s := by
  haveI := lessNaN_asc_total
  haveI := lessNaN_asc_trans
  haveI := lessNaN_asc_antisymm
  exact List.eq_of_perm_of_sorted ((List.perm_insertionSort _ l).trans hp.symm)
    (List.sorted_insertionSort _ l) hs

theorem sortDescendingNaN_unique (l s : List (Option ℚ)) (hp : s.Perm l)
    (hs : s.Sorted (fun a b => lessNaN a b = false)) : sortDescendingNaN l = s := by
  haveI := lessNaN_desc_total
  haveI := lessNaN_desc_trans
  haveI := lessNaN_desc_antisymm
  exact List.eq_of_perm_of_sorted ((List.perm_insertionSort _ l).trans hp.symm)
    (List.sorted_insertionSort _ l) hs

theorem sortedCopyNaN_length (l : List (Option ℚ)) (isReverse : Bool) :
    (if isReverse then sortDescendingNaN l else sortAscendingNaN l).length = l.length := by
  cases isReverse <;> simp [sortAscendingNaN, sortDescendingNaN, List.length_insertionSort]

/-- Unfolding of `ThresholdNaN` on non-empty storage for a probability in
`[0,1]`, with the index `point` as a natural number. -/
theorem ThresholdNaN_of_unit (values : List (Option ℚ)) (isReverse : Bool) (prob : ℚ)
    (hne : values ≠ []) (hlen : values.length ≤ 2 ^ 53) (h0 : 0 ≤ prob) (h1 : prob ≤ 1) :
    ThresholdNaN values isReverse prob =
      if values.length ≤ ⌊mulF64 (float64Of values.length) prob⌋₊ + 1 then some (some 0)
      else (if isReverse then sortDescendingNaN values
            else sortAscendingNaN values)[⌊mulF64 (float64Of values.length) prob⌋₊ + 1]? := by
  have hpos : 0 < values.length := List.length_pos.mpr hne
  obtain ⟨hx0, hxn⟩ := mulF64_length_bounds values.length prob hlen h0 h1
  have hk : ((⌊mulF64 (float64Of values.length) prob⌋₊ : ℕ) : ℤ) =
      ⌊mulF64 (float64Of values.length) prob⌋ := Int.natCast_floor_eq_floor hx0
  have hkn : ⌊mulF64 (float64Of values.length) prob⌋₊ ≤ values.length :=
    Nat.floor_le_of_le hxn
  have hconv : intOfFloor (mulF64 (float64Of values.length) prob) =
      some ((⌊mulF64 (float64Of values.length) prob⌋₊ : ℕ) : ℤ) := by
    unfold intOfFloor
    rw [← hk, if_pos]
    constructor
    · have : (0 : ℤ) ≤ ((⌊mulF64 (float64Of values.length) prob⌋₊ : ℕ) : ℤ) :=
        Int.natCast_nonneg _
      have h63 : -(2 : ℤ) ^ 63 ≤ 0 := by norm_num
      omega
    · have h53 : ((2 : ℕ) ^ 53 : ℤ) < (2 : ℤ) ^ 63 := by norm_num
      have : ((⌊mulF64 (float64Of values.length) prob⌋₊ : ℕ) : ℤ) ≤ ((2 : ℕ) ^ 53 : ℤ) := by
        exact_mod_cast le_trans hkn hlen
      omega
  simp only [ThresholdNaN, sortedCopyNaN_length, hconv]
  rw [if_neg (by omega)]
  by_cases hle : values.length ≤ ⌊mulF64 (float64Of values.length) prob⌋₊ + 1
  · rw [if_pos hle, if_pos (by omega)]
  · rw [if_neg hle, if_neg (by omega), if_pos (by omega)]
    congr 1

/-- C1: `Threshold` equals its reference definition.  A stored value is a
number `some x` or NaN (`none`).  On non-empty storage of `n` values
(`n ≤ 2 ^ 53`, which every slice satisfies), for `prob` in `[0,1]` and
`k = floor(n * prob)`, the product being the `float64` product the code
computes, with `s` any rearrangement of the stored values sorted as
`sort.Float64Slice` sorts (ascending, NaN first; descending, NaN last, when
`isReverse`; on numbers this is the usual order): the result is `0` when
`n ≤ k + 1`, and the element of `s` at position `k + 1` otherwise; in
particular the result is `0` for `prob = 1`. -/
theorem ThresholdNaN_eq_reference (values : List (Option ℚ)) (isReverse : Bool) (prob : ℚ)
    (s : List (Option ℚ)) (hne : values ≠ []) (hlen : values.length ≤ 2 ^ 53)
    (h0 : 0 ≤ prob) (h1 : prob ≤ 1) (hperm : s.Perm values)
    (hsorted : if isReverse then s.Sorted (fun a b => lessNaN a b = false)
               else s.Sorted (fun a b => lessNaN b a = false)) :
    (values.length ≤ ⌊mulF64 (float64Of values.length) prob⌋₊ + 1 →
        ThresholdNaN values isReverse prob = some (some 0)) ∧
    (⌊mulF64 (float64Of values.length) prob⌋₊ + 1 < values.length →
        ∃ v, s[⌊mulF64 (float64Of values.length) prob⌋₊ + 1]? = some v ∧
          ThresholdNaN values isReverse prob = some v) ∧
    ThresholdNaN values isReverse 1 = some (some 0) := by
  have hfx : (if isReverse then sortDescendingNaN values else sortAscendingNaN values) = s := by
    cases isReverse
    · simpa using sortAscendingNaN_unique values s hperm (by simpa using hsorted)
    · simpa using sortDescendingNaN_unique values s hperm (by simpa using hsorted)
  have hlens : s.length = values.length := hperm.length_eq
  refine ⟨?_, ?_, ?_⟩
  · intro hle
    rw [ThresholdNaN_of_unit values isReverse prob hne hlen h0 h1, if_pos hle]
  · intro hlt
    rw [ThresholdNaN_of_unit values isReverse prob hne hlen h0 h1, if_neg (by omega), hfx]
    refine ⟨s.get ⟨⌊mulF64 (float64Of values.length) prob⌋₊ + 1, by omega⟩, ?_, ?_⟩ <;>
      simp [List.getElem?_eq_getElem, hlens, hlt]
  · rw [ThresholdNaN_of_unit values isReverse 1 hne hlen zero_le_one (le_refl 1), if_pos]
    have : mulF64 (float64Of values.length) 1 = (values.length : ℚ) := by
      rw [float64Of_eq _ hlen]
      unfold mulF64
      rw [mul_one, roundF64_natCast _ hlen]
    rw [this, Nat.floor_natCast]
    omega

theorem ThresholdNaN_eq_reference_witness :
    oneToTenNaN ≠ [] ∧ oneToTenNaN.length ≤ 2 ^ 53 ∧
    (0 : ℚ) ≤ float07 ∧ float07 ≤ 1 ∧
    oneToTenNaN.Perm oneToTenNaN ∧
    oneToTenNaN.Sorted (fun a b => lessNaN b a = false) ∧
    ⌊mulF64 (float64Of oneToTenNaN.length) float07⌋₊ = 7 ∧
    ThresholdNaN oneToTenNaN false float07 = some (some 9) := by
  have hne : oneToTenNaN ≠ [] := by simp [oneToTenNaN]
  have hl : oneToTenNaN.length = 10 := rfl
  have hlen : oneToTenNaN.length ≤ 2 ^ 53 := by rw [hl]; norm_num
  have h0 : (0 : ℚ) ≤ float07 := by norm_num [float07]
  have h1 : float07 ≤ 1 := by norm_num [float07]
  have hperm : oneToTenNaN.Perm oneToTenNaN := List.Perm.refl _
  have hsorted : oneToTenNaN.Sorted (fun a b => lessNaN b a = false) := by
    simp [oneToTenNaN, List.Sorted, lessNaN]
    norm_num
  have hk : ⌊mulF64 (float64Of oneToTenNaN.length) float07⌋₊ = 7 := by
    rw [hl, mulF64_ten_float07.1]
    norm_num
  obtain ⟨-, h, -⟩ := ThresholdNaN_eq_reference oneToTenNaN false float07 oneToTenNaN
    hne hlen h0 h1 hperm (by simpa using hsorted)
  rw [hk] at h
  obtain ⟨v, hv, hT⟩ := h (by rw [hl]; norm_num)
  have hv9 : v = some 9 := by
    simp [oneToTenNaN] at hv
    exact hv.symm
  rw [hv9] at hT
  exact ⟨hne, hlen, h0, h1, hperm, hsorted, hk, hT⟩

/-! ## Ordering of `Threshold` -/

/-- C4 (as stated, refuted): on `[1, 2, 3, 4]`, `Threshold(false, 0.5)` is `4`
and `Threshold(false, 1)` is the sentinel `0`, so the ascending threshold is
not non-decreasing; on `[-1, -2, -3, -4]` the descending threshold goes from
`-4` up to `0`.  Every `float64` operation involved is exact.  On
`[NaN, NaN, 1, 2]`, `Threshold(false, 0)` is NaN and `Threshold(false, 0.25)`
is `1`, and `NaN <= 1` is false. -/
theorem ThresholdF64_ordering_counterexample :
    (Values.mk 0 [1, 2, 3, 4]).ThresholdF64 false (1 / 2) = some 4 ∧
    (Values.mk 0 [1, 2, 3, 4]).ThresholdF64 false 1 = some 0 ∧
    ¬ ((4 : ℚ) ≤ 0) ∧
    (Values.mk 0 [-1, -2, -3, -4]).ThresholdF64 true (1 / 2) = some (-4) ∧
    (Values.mk 0 [-1, -2, -3, -4]).ThresholdF64 true 1 = some 0 ∧
    ¬ ((-4 : ℚ) ≥ 0) ∧
    ThresholdNaN [none, none, some 1, some 2] false 0 = some none ∧
    ThresholdNaN [none, none, some 1, some 2] false (1 / 4) = some (some 1) ∧
    leNaN none (some 1) = false := by
  refine ⟨?_, ?_, by norm_num, ?_, ?_, by norm_num, ThresholdNaN_two_nans.2.2.1,
    ThresholdNaN_two_nans.2.2.2, rfl⟩
  · rw [ThresholdF64_of_unit _ _ _ (by decide) (by norm_num) (by norm_num) (by norm_num),
      (floor_four_probs (Values.mk 0 [1, 2, 3, 4]) rfl).1]
    simp [sortAscending]
  · rw [ThresholdF64_of_unit _ _ _ (by decide) (by norm_num) (by norm_num) (by norm_num),
      (floor_four_probs (Values.mk 0 [1, 2, 3, 4]) rfl).2]
    simp
  · rw [ThresholdF64_of_unit _ _ _ (by decide) (by norm_num) (by norm_num) (by norm_num),
      (floor_four_probs (Values.mk 0 [-1, -2, -3, -4]) rfl).1]
    simp [sortDescending]
  · rw [ThresholdF64_of_unit _ _ _ (by decide) (by norm_num) (by norm_num) (by norm_num),
      (floor_four_probs (Values.mk 0 [-1, -2, -3, -4]) rfl).2]
    simp

/-- C4 (amended): on non-empty storage of `n` finite observations
(`n ≤ 2 ^ 53`), for `0 ≤ pr ≤ qr ≤ 1` such that the call at `qr` is not
answered by the insufficient-tail sentinel (`floor(n * qr) + 1 < n`), or the
call at `pr` already is (`n ≤ floor(n * pr) + 1`), the products being the
`float64` products the code computes, `Threshold(false, ·)` is non-decreasing
and `Threshold(true, ·)` is non-increasing from `pr` to `qr`. -/
theorem ThresholdF64_ordering (p : Values) (pr qr : ℚ) (hne : p.values ≠ [])
    (hlen : p.values.length ≤ 2 ^ 53) (h0 : 0 ≤ pr) (hpq : pr ≤ qr) (h1 : qr ≤ 1)
    (hq : ⌊mulF64 (float64Of p.values.length) qr⌋₊ + 1 < p.values.length ∨
          p.values.length ≤ ⌊mulF64 (float64Of p.values.length) pr⌋₊ + 1) :
    ∃ a b c d, p.ThresholdF64 false pr = some a ∧ p.ThresholdF64 false qr = some b ∧ a ≤ b ∧
      p.ThresholdF64 true pr = some c ∧ p.ThresholdF64 true qr = some d ∧ d ≤ c := by
  have hn0 : (0 : ℚ) ≤ float64Of p.values.length := by
    rw [float64Of_eq _ hlen]; exact Nat.cast_nonneg _
  have hk : ⌊mulF64 (float64Of p.values.length) pr⌋₊ ≤
      ⌊mulF64 (float64Of p.values.length) qr⌋₊ :=
    Nat.floor_mono (roundF64_mono (mul_le_mul_of_nonneg_left hpq hn0))
  have h0q : 0 ≤ qr := le_trans h0 hpq
  have h1p : pr ≤ 1 := le_trans hpq h1
  rw [ThresholdF64_of_unit p false pr hne hlen h0 h1p,
    ThresholdF64_of_unit p false qr hne hlen h0q h1,
    ThresholdF64_of_unit p true pr hne hlen h0 h1p,
    ThresholdF64_of_unit p true qr hne hlen h0q h1]
  rcases hq with hq | hq
  · have hnp : ¬ p.values.length ≤ ⌊mulF64 (float64Of p.values.length) pr⌋₊ + 1 := by omega
    have hnq : ¬ p.values.length ≤ ⌊mulF64 (float64Of p.values.length) qr⌋₊ + 1 := by omega
    simp only [if_neg hnp, if_neg hnq]
    obtain ⟨a, b, ha, hb, hab⟩ := sortAscending_mono p.values _ _ (Nat.succ_le_succ hk) hq
    obtain ⟨c, d, hc, hd, hdc⟩ := sortDescending_anti p.values _ _ (Nat.succ_le_succ hk) hq
    exact ⟨a, b, c, d, by simpa using ha, by simpa using hb, hab,
      by simpa using hc, by simpa using hd, hdc⟩
  · have hq2 : p.values.length ≤ ⌊mulF64 (float64Of p.values.length) qr⌋₊ + 1 := by omega
    simp only [if_pos hq, if_pos hq2]
    exact ⟨0, 0, 0, 0, rfl, rfl, le_refl _, rfl, rfl, le_refl _⟩

theorem ThresholdF64_ordering_witness :
    (Values.mk 0 [3, 1, 2, 4]).values ≠ [] ∧
    (Values.mk 0 [3, 1, 2, 4]).values.length ≤ 2 ^ 53 ∧
    (0 : ℚ) ≤ 1 / 4 ∧ (1 / 4 : ℚ) ≤ 1 / 2 ∧ (1 / 2 : ℚ) ≤ 1 ∧
    (⌊mulF64 (float64Of (Values.mk 0 [3, 1, 2, 4]).values.length) (1 / 2)⌋₊ + 1 <
        (Values.mk 0 [3, 1, 2, 4]).values.length ∨
      (Values.mk 0 [3, 1, 2, 4]).values.length ≤
        ⌊mulF64 (float64Of (Values.mk 0 [3, 1, 2, 4]).values.length) (1 / 4)⌋₊ + 1) ∧
    ∃ a b c d, (Values.mk 0 [3, 1, 2, 4]).ThresholdF64 false (1 / 4) = some a ∧
      (Values.mk 0 [3, 1, 2, 4]).ThresholdF64 false (1 / 2) = some b ∧ a ≤ b ∧
      (Values.mk 0 [3, 1, 2, 4]).ThresholdF64 true (1 / 4) = some c ∧
      (Values.mk 0 [3, 1, 2, 4]).ThresholdF64 true (1 / 2) = some d ∧ d ≤ c :=
  ⟨by decide, by norm_num, by norm_num, by norm_num, by norm_num,
    Or.inl (by rw [(floor_four_probs (Values.mk 0 [3, 1, 2, 4]) rfl).1]; decide),
    ThresholdF64_ordering (Values.mk 0 [3, 1, 2, 4]) (1 / 4) (1 / 2)
      (by decide) (by norm_num) (by norm_num) (by norm_num) (by norm_num)
      (Or.inl (by rw [(floor_four_probs (Values.mk 0 [3, 1, 2, 4]) rfl).1]; decide))⟩

end data
